import Mathlib

/-!
Verification development for the COW-Filesystem repository (user-space
copy-on-write filesystem: content-addressed object store, SQLite metadata
layer, versioning / snapshot / GC command surface).

The development shallowly embeds the relevant code:

* `src/cowfs/metadata.py` — the SQLite metadata layer (`MetadataDB`).
  Tables become lists of rows; each SQL statement is translated into an
  explicit list transformation.  SQLite specifics that the code relies on
  are modelled faithfully:
  - `PRAGMA foreign_keys=ON` is active, so `DELETE FROM versions` fails
    with an IntegrityError when a `snapshot_entries` row references the
    version, and `DELETE FROM objects` fails when a `versions` row
    references the object (the only declared foreign keys into those
    tables).  Fallible statements are embedded with `Except`.
  - `LIKE` patterns use SQLite semantics: `%` matches any character
    sequence, `_` matches one character, and ASCII letters compare
    case-insensitively.
  - `DATETIME` values are stored as `YYYY-MM-DD HH:MM:SS` strings whose
    lexicographic order agrees with temporal order; they are embedded as
    `Nat` with the same total order.  Timestamp columns that no query
    ever reads (`files.created_at`, `files.updated_at`,
    `objects.created_at`, `events.created_at`) are omitted, as are the
    `mode`/`uid`/`gid` attribute columns, which no claim mentions.
* `src/cowfs/object_store.py` — the content-addressed blob store.  The
  on-disk state is an association list from sharded paths to byte lists,
  and SHA-256 (`hashlib.sha256(...).hexdigest()`) is implemented in full.
* `src/cowfs/cli.py` — the operator surface (`restore`, `gc`,
  `snapshot create`, `snapshot restore`).  A command that performs
  several commits is embedded as the list of states it commits, so that
  transaction-boundary statements can be expressed; statements that
  raise roll the active transaction back, which is modelled by returning
  the pre-transaction state.
-/

namespace COWFS

/-! ## Generic list helpers -/

/-- Insertion step of a stable insertion sort with a `Bool` comparator. -/
def insertSorted (le : α → α → Bool) (a : α) : List α → List α
  | [] => [a]
  | b :: bs => if le a b then a :: b :: bs else b :: insertSorted le a bs

/-- Stable insertion sort; embeds SQL `ORDER BY` with a total key order. -/
def sortBy (le : α → α → Bool) : List α → List α
  | [] => []
  | a :: as => insertSorted le a (sortBy le as)

/-! ## Data model (`SCHEMA_SQL` in `src/cowfs/metadata.py`)

One structure per table, one field per column that some embedded query
reads.  `DATETIME` columns are `Nat` (see file header), `BOOLEAN` is
`Bool`, nullable columns are `Option`.  `ref_count` is `Int`: SQLite
integers are signed and the code decrements without a floor. -/

/-- Row of the `files` table. -/
structure FileRow where
  id : Nat
  parent_id : Nat
  name : String
  path : String
  is_dir : Bool
  current_version_id : Option Nat
  is_deleted : Bool
  deriving Repr, DecidableEq

/-- Row of the `versions` table. -/
structure VersionRow where
  id : Nat
  file_id : Nat
  object_hash : String
  size_bytes : Nat
  created_at : Nat
  is_deleted : Bool
  deriving Repr, DecidableEq

/-- Row of the `objects` table. -/
structure ObjectRow where
  hash : String
  size_bytes : Nat
  ref_count : Int
  deriving Repr, DecidableEq

/-- Row of the `snapshots` table. -/
structure SnapshotRow where
  id : Nat
  name : String
  description : Option String
  deriving Repr, DecidableEq

/-- Row of the `snapshot_entries` table (the `id` column is never read). -/
structure EntryRow where
  snapshot_id : Nat
  file_id : Nat
  version_id : Nat
  deriving Repr, DecidableEq

/-- Row of the `events` table. -/
structure EventRow where
  action : String
  path : Option String
  version_id : Option Nat
  object_hash : Option String
  deriving Repr, DecidableEq

/-- The whole metadata database.  Lists keep insertion order (SQLite scans
rows of these tables in rowid order); the `next_*` counters model the
`AUTOINCREMENT` id allocators. -/
structure MetaState where
  files : List FileRow
  versions : List VersionRow
  objects : List ObjectRow
  snapshots : List SnapshotRow
  snapshot_entries : List EntryRow
  events : List EventRow
  next_file_id : Nat
  next_version_id : Nat
  next_snapshot_id : Nat
  deriving Repr, DecidableEq

/-- `MetadataDB.initialize`: empty tables plus the root inode
(`ROOT_INODE_SQL`: id 1, parent 1, name empty, path "/", directory). -/
def initState : MetaState :=
  { files := [{ id := 1, parent_id := 1, name := "", path := "/", is_dir := true,
                current_version_id := none, is_deleted := false }]
    versions := []
    objects := []
    snapshots := []
    snapshot_entries := []
    events := []
    next_file_id := 2
    next_version_id := 1
    next_snapshot_id := 1 }

/-! ## File operations (`MetadataDB`, metadata.py lines 150-287) -/

/-- `MetadataDB.get_file`: `SELECT * FROM files WHERE id = ? AND
is_deleted = FALSE`. -/
def get_file (st : MetaState) (inode : Nat) : Option FileRow :=
  st.files.find? (fun f => f.id == inode && !f.is_deleted)

/-- `MetadataDB.get_file_by_path` with `include_deleted` flag. -/
def get_file_by_path (st : MetaState) (path : String)
    (include_deleted : Bool := false) : Option FileRow :=
  if include_deleted then st.files.find? (fun f => f.path == path)
  else st.files.find? (fun f => f.path == path && !f.is_deleted)

/-- `MetadataDB.create_file`: INSERT a new file row, returning the new id. -/
def create_file (st : MetaState) (parent_id : Nat) (name path : String)
    (is_dir : Bool) : Nat × MetaState :=
  (st.next_file_id,
   { st with
       files := st.files ++
         [{ id := st.next_file_id, parent_id := parent_id, name := name,
            path := path, is_dir := is_dir, current_version_id := none,
            is_deleted := false }]
       next_file_id := st.next_file_id + 1 })

/-- `MetadataDB.record_event`: INSERT INTO events. -/
def record_event (st : MetaState) (action : String)
    (path : Option String := none) (version_id : Option Nat := none)
    (object_hash : Option String := none) : MetaState :=
  { st with
      events := st.events ++
        [{ action := action, path := path, version_id := version_id,
           object_hash := object_hash }] }

/-- `MetadataDB.set_file_deleted`: UPDATE files SET is_deleted = ? WHERE id = ?. -/
def set_file_deleted (st : MetaState) (inode : Nat) (is_deleted : Bool) :
    MetaState :=
  { st with
      files := st.files.map (fun f =>
        if f.id = inode then { f with is_deleted := is_deleted } else f) }

/-- `MetadataDB.soft_delete_file`: mark deleted and record the event; the
event path is the live row's path looked up first (None if absent). -/
def soft_delete_file (st : MetaState) (inode : Nat) (action : String := "DELETE") :
    MetaState :=
  let path := (get_file st inode).map (·.path)
  let st1 :=
    { st with
        files := st.files.map (fun f =>
          if f.id = inode then { f with is_deleted := true } else f) }
  record_event st1 action path

/-! ## Version operations (`MetadataDB`, metadata.py lines 289-432) -/

/-- Key order of `ORDER BY created_at ASC` (ties left to the engine). -/
def leCreated (a b : VersionRow) : Bool :=
  a.created_at ≤ b.created_at

/-- Strict lexicographic order on the `(created_at, id)` pair. -/
def pairLt (a b : VersionRow) : Bool :=
  a.created_at < b.created_at || (a.created_at == b.created_at && a.id < b.id)

/-- Key order of `ORDER BY file_id ASC, created_at ASC, id ASC` (total,
because `id` is a key). -/
def leFileCreatedId (a b : VersionRow) : Bool :=
  a.file_id < b.file_id ||
    (a.file_id == b.file_id &&
      (a.created_at < b.created_at ||
        (a.created_at == b.created_at && a.id ≤ b.id)))

/-- `MetadataDB.create_version`: upsert the object row (`INSERT ... ON
CONFLICT(hash) DO UPDATE SET ref_count = ref_count + 1`), insert the
version row, point `files.current_version_id` at it, and record the
caller-supplied event.  The version insert carries a foreign key on
`file_id`; if no file row has that id the statement raises and the
enclosing transaction is rolled back, modelled by `Except.error`. -/
def create_version (st : MetaState) (file_id : Nat) (object_hash : String)
    (size_bytes : Nat) (now : Nat) (action : String := "WRITE") :
    Except Unit (Nat × MetaState) :=
  if st.files.any (fun f => f.id == file_id) then
    let objects :=
      if st.objects.any (fun o => o.hash == object_hash) then
        st.objects.map (fun o =>
          if o.hash = object_hash then { o with ref_count := o.ref_count + 1 } else o)
      else
        st.objects ++ [{ hash := object_hash, size_bytes := size_bytes, ref_count := 1 }]
    let vid := st.next_version_id
    let versions := st.versions ++
      [{ id := vid, file_id := file_id, object_hash := object_hash,
         size_bytes := size_bytes, created_at := now, is_deleted := false }]
    let files := st.files.map (fun f =>
      if f.id = file_id then { f with current_version_id := some vid } else f)
    let st1 := { st with objects := objects, versions := versions, files := files,
                         next_version_id := vid + 1 }
    let path := (get_file st1 file_id).map (·.path)
    Except.ok (vid, record_event st1 action path (some vid) (some object_hash))
  else
    Except.error ()

/-- `MetadataDB.get_version`: SELECT * FROM versions WHERE id = ?. -/
def get_version (st : MetaState) (version_id : Nat) : Option VersionRow :=
  st.versions.find? (fun v => v.id == version_id)

/-- `MetadataDB.get_current_version`: join of the live file row with the
version row its `current_version_id` names. -/
def get_current_version (st : MetaState) (inode : Nat) : Option VersionRow :=
  match get_file st inode with
  | none => none
  | some f =>
    match f.current_version_id with
    | none => none
    | some vid => st.versions.find? (fun v => v.id == vid)

/-- `MetadataDB.list_versions`: `SELECT * FROM versions WHERE file_id = ?
AND is_deleted = FALSE ORDER BY created_at ASC`.  The `ORDER BY` names
only `created_at`; the function realizes it as a stable sort of the rows
in rowid order, which is what the engine produces here. -/
def list_versions (st : MetaState) (file_id : Nat) : List VersionRow :=
  sortBy leCreated
    (st.versions.filter (fun v => v.file_id == file_id && !v.is_deleted))

/-- What the `list_versions` SQL text specifies about its result: a
permutation of the selected rows that is sorted on the named key
`created_at`.  SQL leaves the relative order of rows with equal keys
undefined, so the query contract is a relation, not a function. -/
def listVersionsQuery (st : MetaState) (file_id : Nat)
    (out : List VersionRow) : Prop :=
  out.Perm (st.versions.filter (fun v => v.file_id == file_id && !v.is_deleted)) ∧
    out.Pairwise (fun a b => leCreated a b = true)

/-- Rank of `v` under `ROW_NUMBER() OVER (PARTITION BY file_id ORDER BY
created_at DESC, id DESC)` computed over the non-deleted versions: one
plus the number of partition rows strictly greater in the
`(created_at, id)` order (ranks are determined this way because `id` is
a key, so the order has no ties). -/
def rankDesc (st : MetaState) (v : VersionRow) : Nat :=
  1 + st.versions.countP (fun w =>
    !w.is_deleted && w.file_id == v.file_id && pairLt v w)

/-- `MetadataDB.list_prunable_versions`: non-deleted versions whose rank
exceeds `keep_last`, ordered by `(file_id, created_at, id)`. -/
def list_prunable_versions (st : MetaState) (keep_last : Nat) :
    List VersionRow :=
  sortBy leFileCreatedId
    (st.versions.filter (fun v => !v.is_deleted && decide (keep_last < rankDesc st v)))

/-- `MetadataDB.list_prunable_versions_before`: non-deleted versions
strictly older than the cutoff that no `files.current_version_id`
references (the `LEFT JOIN files ... WHERE f.id IS NULL` filter), ordered
by `(file_id, created_at, id)`. -/
def list_prunable_versions_before (st : MetaState) (before : Nat) :
    List VersionRow :=
  sortBy leFileCreatedId
    (st.versions.filter (fun v =>
      !v.is_deleted && decide (v.created_at < before) &&
        st.files.all (fun f => f.current_version_id != some v.id)))

/-- One pruning step: `DELETE FROM versions WHERE id = ?` followed by
`UPDATE objects SET ref_count = ref_count - 1 WHERE hash = ?`. -/
def pruneStep (st : MetaState) (row : VersionRow) : MetaState :=
  { st with
      versions := st.versions.filter (fun v => v.id != row.id)
      objects := st.objects.map (fun o =>
        if o.hash = row.object_hash then { o with ref_count := o.ref_count - 1 } else o) }

/-- Loop body shared by both pruning policies.  `snapshot_entries
(version_id)` declares a foreign key into `versions(id)`, so the DELETE
of a referenced version raises an IntegrityError; no caller catches it,
the enclosing transaction is rolled back, and the partially executed
loop leaves no observable state, modelled by `Except.error`. -/
def pruneRows (st : MetaState) (rows : List VersionRow) :
    Except Unit MetaState :=
  if rows.any (fun r => st.snapshot_entries.any (fun e => e.version_id == r.id)) then
    Except.error ()
  else
    Except.ok (rows.foldl pruneStep st)

/-- `MetadataDB.prune_versions_keep_last`: enumerate the victims, delete
each and decrement its object, return the victim rows. -/
def prune_versions_keep_last (st : MetaState) (keep_last : Nat) :
    Except Unit (List VersionRow × MetaState) := do
  let rows := list_prunable_versions st keep_last
  let st1 ← pruneRows st rows
  return (rows, st1)

/-- `MetadataDB.prune_versions_before`: same loop over the before-cutoff
victim list. -/
def prune_versions_before (st : MetaState) (before : Nat) :
    Except Unit (List VersionRow × MetaState) := do
  let rows := list_prunable_versions_before st before
  let st1 ← pruneRows st rows
  return (rows, st1)

/-! ## Object-record operations (metadata.py lines 434-467) -/

/-- `MetadataDB.get_object`: SELECT * FROM objects WHERE hash = ?. -/
def get_object (st : MetaState) (obj_hash : String) : Option ObjectRow :=
  st.objects.find? (fun o => o.hash == obj_hash)

/-- `MetadataDB.get_orphaned_objects`: SELECT * FROM objects WHERE ref_count <= 0. -/
def get_orphaned_objects (st : MetaState) : List ObjectRow :=
  st.objects.filter (fun o => o.ref_count ≤ 0)

/-- `MetadataDB.delete_object_record`: `DELETE FROM objects WHERE hash = ?`.
`versions(object_hash)` declares a foreign key into `objects(hash)`, so
the DELETE raises an IntegrityError while any version row references the
hash. -/
def delete_object_record (st : MetaState) (obj_hash : String) :
    Except Unit MetaState :=
  if st.versions.any (fun v => v.object_hash == obj_hash) then
    Except.error ()
  else
    Except.ok { st with objects := st.objects.filter (fun o => o.hash != obj_hash) }

/-! ## Rename (metadata.py lines 232-254) -/

/-- ASCII lower-casing, as used by the default SQLite `LIKE`. -/
def asciiLower (c : Char) : Char :=
  if 'A' ≤ c ∧ c ≤ 'Z' then Char.ofNat (c.toNat + 32) else c

/-- SQLite `LIKE` pattern matching: `%` matches any character sequence,
`_` matches exactly one character, everything else matches itself up to
ASCII case folding.  Structural recursion on the pattern; the `%` case
tries every suffix of the candidate. -/
def likeMatch (pat : List Char) (s : List Char) : Bool :=
  match pat with
  | [] => s.isEmpty
  | c :: ps =>
    if c = '%' then s.tails.any (fun t => likeMatch ps t)
    else
      match s with
      | [] => false
      | d :: ds =>
        if c = '_' then likeMatch ps ds
        else asciiLower c = asciiLower d && likeMatch ps ds

/-- The descendant pattern `old_path || '/%'` of the rename UPDATE. -/
def renamePattern (old_path : String) : List Char :=
  old_path.toList ++ ['/', '%']

/-- The descendant UPDATE, row by row in table (rowid) order, as SQLite
executes it: each LIKE-matched row's path is rewritten in place, and the
`files.path` UNIQUE index is checked at every write against all other
rows as they stand at that moment — already rewritten rows and
not-yet-visited originals alike; a conflict raises an IntegrityError.
`acc` holds the rows already processed, the second list those still to
come. -/
def renameSweep (pat : List Char) (old_len : Nat) (new_path : String) :
    List FileRow → List FileRow → Except Unit (List FileRow)
  | acc, [] => Except.ok acc
  | acc, f :: rest =>
    if likeMatch pat f.path.toList then
      if (acc ++ rest).any
          (fun g => g.path == new_path ++ f.path.drop old_len) then
        Except.error ()
      else
        renameSweep pat old_len new_path
          (acc ++ [{ f with path := new_path ++ f.path.drop old_len }]) rest
    else renameSweep pat old_len new_path (acc ++ [f]) rest

/-- `MetadataDB.rename_file`: look up the live row; update its parent,
name and path; if it is a directory, additionally run `UPDATE files SET
path = ? || substr(path, ?) WHERE path LIKE ? || '/%'` with the new
path, `len(old_path) + 1` and the old path bound — i.e. every row whose
path LIKE-matches the pattern gets the characters beyond position
`len(old_path)` re-prefixed with the new path.  `files.path` is UNIQUE:
the first UPDATE raises an IntegrityError when another row (live or
soft-deleted) already holds `new_path`, and the descendant UPDATE
checks the index row by row (`renameSweep`); a raise leaves the
transaction uncommitted, modelled by `Except.error`.  A missing/deleted
inode makes the call a successful no-op. -/
def rename_file (st : MetaState) (inode : Nat) (new_parent_id : Nat)
    (new_name new_path : String) : Except Unit MetaState :=
  match get_file st inode with
  | none => Except.ok st
  | some row =>
    if st.files.any (fun f => f.id != inode && f.path == new_path) then
      Except.error ()
    else
      let old_path := row.path
      let files1 := st.files.map (fun f =>
        if f.id = inode then
          { f with parent_id := new_parent_id, name := new_name, path := new_path }
        else f)
      if row.is_dir then
        (renameSweep (renamePattern old_path) old_path.length new_path
          [] files1).map (fun files2 => { st with files := files2 })
      else Except.ok { st with files := files1 }

/-! ## Snapshot operations (metadata.py lines 469-539) -/

/-- `MetadataDB.create_snapshot`: INSERT the snapshot row (`name` is
UNIQUE — a duplicate raises an IntegrityError), then INSERT one entry
per live, non-directory file with a non-null `current_version_id`,
committing both together.  `snapshot_entries.version_id` carries a
foreign key into `versions(id)`: if some inserted entry's version id
names no existing version row (a dangling `current_version_id`), the
INSERT..SELECT raises an IntegrityError and nothing is committed
(`snapshot_entries.file_id REFERENCES files(id)` is satisfied by
construction, the ids coming from the files table itself). -/
def create_snapshot (st : MetaState) (name : String)
    (description : Option String := none) : Except Unit (Nat × MetaState) :=
  if st.snapshots.any (fun s => s.name == name) then
    Except.error ()
  else
    let sid := st.next_snapshot_id
    let entries := (st.files.filter (fun f =>
        !f.is_deleted && !f.is_dir && f.current_version_id != none)).filterMap
      (fun f => f.current_version_id.map (fun vid =>
        ({ snapshot_id := sid, file_id := f.id, version_id := vid } : EntryRow)))
    if entries.any (fun e => !(st.versions.any (fun v => v.id == e.version_id))) then
      Except.error ()
    else
      Except.ok (sid,
        { st with
            snapshots := st.snapshots ++ [{ id := sid, name := name, description := description }]
            snapshot_entries := st.snapshot_entries ++ entries
            next_snapshot_id := sid + 1 })

/-- `MetadataDB.get_snapshot_by_name`. -/
def get_snapshot_by_name (st : MetaState) (name : String) : Option SnapshotRow :=
  st.snapshots.find? (fun s => s.name == name)

/-- `MetadataDB.get_snapshot_entries`: the (file_id, version_id) rows of one snapshot. -/
def get_snapshot_entries (st : MetaState) (snapshot_id : Nat) : List EntryRow :=
  st.snapshot_entries.filter (fun e => e.snapshot_id == snapshot_id)

/-- `MetadataDB.list_active_file_ids`: ids of live non-directory files. -/
def list_active_file_ids (st : MetaState) : List Nat :=
  (st.files.filter (fun f => !f.is_deleted && !f.is_dir)).map (·.id)

/-! ## Object store (`src/cowfs/object_store.py`)

Blobs are byte lists; the on-disk object tree is an association list from
sharded paths to blob contents.  `hashlib.sha256(data).hexdigest()` is
implemented in full below (FIPS 180-4), with the round and initialization
constants derived, as in the standard, from the fractional parts of the
cube and square roots of the first primes. -/

/-- Largest `r` with `r ^ pow ≤ n`, by fuelled binary search (the fuel
covers the 2^40 search space used for the SHA-256 constants). -/
def rootFindGo (pow n : Nat) : Nat → Nat → Nat → Nat
  | lo, _, 0 => lo
  | lo, hi, fuel + 1 =>
    if lo = hi then lo
    else
      let mid := (lo + hi + 1) / 2
      if mid ^ pow ≤ n then rootFindGo pow n mid hi fuel
      else rootFindGo pow n lo (mid - 1) fuel

/-- Integer `pow`-th root of `n` (exact floor for `n < 2 ^ (40 * pow)`). -/
def rootFind (pow n : Nat) : Nat :=
  rootFindGo pow n 0 (2 ^ 40) 60

/-- The first 64 primes, whose cube roots seed the SHA-256 round constants. -/
def sha256Primes : List Nat :=
  [2, 3, 5, 7, 11, 13, 17, 19, 23, 29, 31, 37, 41, 43, 47, 53,
   59, 61, 67, 71, 73, 79, 83, 89, 97, 101, 103, 107, 109, 113, 127, 131,
   137, 139, 149, 151, 157, 163, 167, 173, 179, 181, 191, 193, 197, 199, 211, 223,
   227, 229, 233, 239, 241, 251, 257, 263, 269, 271, 277, 281, 283, 293, 307, 311]

/-- SHA-256 round constants: first 32 bits of the fractional parts of the
cube roots of the first 64 primes. -/
def sha256K : List Nat :=
  sha256Primes.map (fun p => rootFind 3 (p * 2 ^ 96) % 2 ^ 32)

/-- SHA-256 initial hash value: first 32 bits of the fractional parts of
the square roots of the first 8 primes. -/
def sha256H0 : List Nat :=
  (sha256Primes.take 8).map (fun p => rootFind 2 (p * 2 ^ 64) % 2 ^ 32)

/-- 32-bit right rotation. -/
def rotr32 (n x : Nat) : Nat :=
  ((x >>> n) ||| (x <<< (32 - n))) % 2 ^ 32

/-- SHA-256 message padding: append `0x80`, zeros to 56 mod 64 bytes,
then the bit length as 8 big-endian bytes. -/
def sha256Pad (msg : List Nat) : List Nat :=
  let len := msg.length
  let zeros := (119 - len % 64) % 64
  let bitLen := 8 * len
  msg ++ [0x80] ++ List.replicate zeros 0 ++
    (List.range 8).map (fun i => bitLen >>> (8 * (7 - i)) % 256)

/-- Split a byte list into 64-byte blocks (`cur` accumulates the current
block in reverse); the padded message length is a multiple of 64. -/
def sha256Blocks : List Nat → List Nat → List (List Nat)
  | [], cur => if cur.isEmpty then [] else [cur.reverse]
  | b :: bs, cur =>
    if cur.length = 63 then (b :: cur).reverse :: sha256Blocks bs []
    else sha256Blocks bs (b :: cur)

/-- Big-endian 4-byte groups to 32-bit words. -/
def bytesToWords : List Nat → List Nat
  | a :: b :: c :: d :: rest =>
    (a * 16777216 + b * 65536 + c * 256 + d) :: bytesToWords rest
  | _ => []

/-- Extend a 16-word block to the 64-word message schedule. -/
def sha256Extend (w : List Nat) : Nat → List Nat
  | 0 => w
  | n + 1 =>
    let i := w.length
    let w15 := w.getD (i - 15) 0
    let w2 := w.getD (i - 2) 0
    let s0 := (rotr32 7 w15) ^^^ (rotr32 18 w15) ^^^ (w15 >>> 3)
    let s1 := (rotr32 17 w2) ^^^ (rotr32 19 w2) ^^^ (w2 >>> 10)
    sha256Extend (w ++ [(w.getD (i - 16) 0 + s0 + w.getD (i - 7) 0 + s1) % 2 ^ 32]) n

/-- One round of the SHA-256 compression function. -/
def sha256Round (st : List Nat) (kw : Nat × Nat) : List Nat :=
  match st with
  | [a, b, c, d, e, f, g, h] =>
    let s1 := (rotr32 6 e) ^^^ (rotr32 11 e) ^^^ (rotr32 25 e)
    let ch := (e &&& f) ^^^ ((e ^^^ (2 ^ 32 - 1)) &&& g)
    let temp1 := (h + s1 + ch + kw.1 + kw.2) % 2 ^ 32
    let s0 := (rotr32 2 a) ^^^ (rotr32 13 a) ^^^ (rotr32 22 a)
    let maj := (a &&& b) ^^^ (a &&& c) ^^^ (b &&& c)
    let temp2 := (s0 + maj) % 2 ^ 32
    [(temp1 + temp2) % 2 ^ 32, a, b, c, (d + temp1) % 2 ^ 32, e, f, g]
  | other => other

/-- Process one 64-byte block into the running hash value. -/
def sha256Block (h : List Nat) (block : List Nat) : List Nat :=
  let w := sha256Extend (bytesToWords block) 48
  let st := (sha256K.zip w).foldl sha256Round h
  (h.zip st).map (fun p => (p.1 + p.2) % 2 ^ 32)

/-- Lower-case hexadecimal digit. -/
def hexChar (n : Nat) : Char :=
  if n < 10 then Char.ofNat (48 + n) else Char.ofNat (87 + n)

/-- A 32-bit word as 8 lower-case hex characters. -/
def wordToHex (w : Nat) : List Char :=
  (List.range 8).map (fun i => hexChar (w >>> (4 * (7 - i)) % 16))

/-- `ObjectStore.compute_hash`: the SHA-256 hex digest of the data, as
the lower-case string `hashlib.sha256(data).hexdigest()` returns. -/
def compute_hash (data : List Nat) : String :=
  let hs := (sha256Blocks (sha256Pad data) []).foldl sha256Block sha256H0
  String.mk (hs.flatMap wordToHex)

/-- The sharded location `objects/H[0:2]/H[2:]` of `ObjectStore.object_path`,
as the pair (prefix directory name, file name). -/
def object_path (obj_hash : String) : List Char × List Char :=
  (obj_hash.toList.take 2, obj_hash.toList.drop 2)

/-- The `objects/` directory: an association list from sharded paths to
blob bytes. -/
abbrev Disk := List ((List Char × List Char) × List Nat)

/-- Blob lookup by path. -/
def diskLookup (d : Disk) (p : List Char × List Char) : Option (List Nat) :=
  (d.find? (fun e => e.1 == p)).map (·.2)

/-- `ObjectStore.store_sync`: hash, and write the blob only when its path
is absent (deduplication); returns the hash.  The temp-file/fsync/rename
dance of `_write_object` has the net effect of creating the final path
with the data. -/
def store_sync (d : Disk) (data : List Nat) : String × Disk :=
  let obj_hash := compute_hash data
  if (diskLookup d (object_path obj_hash)).isSome then (obj_hash, d)
  else (obj_hash, d ++ [(object_path obj_hash, data)])

/-- `ObjectStore.read_sync`: read the blob at the computed path; a missing
blob raises (`Path.read_bytes` on a non-existent file), embedded as `none`. -/
def read_sync (d : Disk) (obj_hash : String) : Option (List Nat) :=
  diskLookup d (object_path obj_hash)

/-- `ObjectStore.delete_sync`: stat-then-unlink; returns the byte count
freed, 0 when the blob is already missing. -/
def delete_sync (d : Disk) (obj_hash : String) : Nat × Disk :=
  match diskLookup d (object_path obj_hash) with
  | none => (0, d)
  | some b => (b.length, d.filter (fun e => e.1 != object_path obj_hash))

/-- `ObjectStore.EMPTY_HASH` (object_store.py line 16). -/
def EMPTY_HASH : String :=
  "e3b0c44298fc1c149afbf4c8996fb92427ae41e4649b934ca495991b7852b855"

/-! ## CLI: restore (cli.py lines 187-284, explicit `--version` selector)

The CLI opens one transaction: look the file up by path (deleted rows
included), pick the 1-based entry of `list_versions`, and — unless this
is a dry run — append a duplicate of it via `create_version` with action
`RESTORE` and undelete the file; any raise rolls the transaction back
(`Except.error`, no state change observable).  Paths are taken already
in the normalized shape `_normalize_file_path` produces. -/

/-- The data the restore command reports (`result` dict in the code). -/
structure RestoreResult where
  path : String
  restored_from_version : Nat
  target_hash : String
  target_size : Nat
  dry_run : Bool
  deriving Repr, DecidableEq

/-- The restore command. -/
def restore_run (st : MetaState) (path : String) (version : Nat)
    (now : Nat) (dry_run : Bool) : Except Unit (RestoreResult × MetaState) :=
  match get_file_by_path st path true with
  | none => Except.error ()
  | some file_row =>
    let versions := list_versions st file_row.id
    if version < 1 ∨ versions.length < version then Except.error ()
    else
      match versions.get? (version - 1) with
      | none => Except.error ()
      | some target =>
        let result : RestoreResult :=
          { path := path, restored_from_version := version,
            target_hash := target.object_hash, target_size := target.size_bytes,
            dry_run := dry_run }
        if dry_run then Except.ok (result, st)
        else
          match create_version st file_row.id target.object_hash
              target.size_bytes now "RESTORE" with
          | Except.error _ => Except.error ()
          | Except.ok (_, st1) =>
            let st2 := if file_row.is_deleted then set_file_deleted st1 file_row.id false
                       else st1
            Except.ok (result, st2)

/-! ## CLI: gc (cli.py lines 557-685) -/

/-- The mutually exclusive pruning policies of the gc command
(`--keep-last` carries a typer-enforced minimum of 1). -/
inductive GCPolicy where
  | nonePolicy
  | keepLast (k : Nat)
  | beforeTs (t : Nat)
  deriving Repr, DecidableEq

/-- The gc report (`result` dict in the code). -/
structure GCReport where
  dry_run : Bool
  versions_pruned : Nat
  versions_pruned_bytes : Nat
  orphaned_objects : Nat
  processed_objects : Nat
  reclaimed_bytes : Nat
  missing_on_disk : Nat
  skipped_referenced : Nat
  deriving Repr, DecidableEq

/-- Accumulator of the real-mode orphan loop. -/
structure GCAcc where
  db : MetaState
  disk : Disk
  processed : Nat
  reclaimed : Nat
  missing : Nat
  skipped : Nat
  deriving Repr

/-- Real-mode orphan step: `delete_object_record` (an IntegrityError
counts the object as skipped and continues), then `delete_sync` on the
blob, accumulating bytes freed and counting blobs missing on disk. -/
def gcRealStep (acc : GCAcc) (obj : ObjectRow) : GCAcc :=
  match delete_object_record acc.db obj.hash with
  | Except.error _ => { acc with skipped := acc.skipped + 1 }
  | Except.ok db1 =>
    let fd := delete_sync acc.disk obj.hash
    { acc with
        db := db1
        disk := fd.2
        processed := acc.processed + 1
        reclaimed := acc.reclaimed + fd.1
        missing := acc.missing + (if fd.1 = 0 then 1 else 0) }

/-- Dry-mode projection: start from the hashes of the current orphans and
add every hash whose recorded ref_count minus its per-hash decrement
count from the victim list would drop to ≤ 0 (the Python set is a
duplicate-free list here; `projected_decrements[h]` is the number of
victim rows carrying `h`). -/
def projectedOrphanHashes (st : MetaState) (pruned_rows : List VersionRow) :
    List String :=
  pruned_rows.foldl (fun acc row =>
      match get_object st row.object_hash with
      | none => acc
      | some o =>
        if o.ref_count -
              (pruned_rows.countP (fun r => r.object_hash == row.object_hash) : Int) ≤ 0
            ∧ row.object_hash ∉ acc
        then acc ++ [row.object_hash] else acc)
    ((get_orphaned_objects st).map (·.hash))

/-- The victim list the selected policy enumerates. -/
def gcVictims (st : MetaState) (policy : GCPolicy) : List VersionRow :=
  match policy with
  | GCPolicy.nonePolicy => []
  | GCPolicy.keepLast k => list_prunable_versions st k
  | GCPolicy.beforeTs t => list_prunable_versions_before st t

/-- The gc command.  Phase 1 enumerates (dry) or deletes (real) the
victim versions; phase 2 queries the orphans and either projects
(dry) or deletes them (real); a raise in phase 1 rolls everything back
before any blob was touched. -/
def gc_command (st : MetaState) (disk : Disk) (policy : GCPolicy)
    (dry_run : Bool) : Except Unit (GCReport × MetaState × Disk) := do
  let pruned_rows := gcVictims st policy
  let st1 ←
    if dry_run then Except.ok st
    else
      match policy with
      | GCPolicy.nonePolicy => Except.ok st
      | GCPolicy.keepLast k => (prune_versions_keep_last st k).map (·.2)
      | GCPolicy.beforeTs t => (prune_versions_before st t).map (·.2)
  let orphans := get_orphaned_objects st1
  let versions_pruned := pruned_rows.length
  let versions_pruned_bytes := (pruned_rows.map (·.size_bytes)).sum
  if dry_run then
    let projected := projectedOrphanHashes st1 pruned_rows
    let reclaimed := (projected.map (fun h =>
      match get_object st1 h with
      | some o => o.size_bytes
      | none => 0)).sum
    Except.ok
      ({ dry_run := true, versions_pruned := versions_pruned,
         versions_pruned_bytes := versions_pruned_bytes,
         orphaned_objects := orphans.length,
         processed_objects := projected.length,
         reclaimed_bytes := reclaimed, missing_on_disk := 0,
         skipped_referenced := 0 }, st1, disk)
  else
    let acc := orphans.foldl gcRealStep
      { db := st1, disk := disk, processed := 0, reclaimed := 0,
        missing := 0, skipped := 0 }
    Except.ok
      ({ dry_run := false, versions_pruned := versions_pruned,
         versions_pruned_bytes := versions_pruned_bytes,
         orphaned_objects := orphans.length,
         processed_objects := acc.processed,
         reclaimed_bytes := acc.reclaimed, missing_on_disk := acc.missing,
         skipped_referenced := acc.skipped }, acc.db, acc.disk)

/-- The accumulator left by the real-mode orphan loop when the victim
list is `rows`. -/
def gcRealAcc (st : MetaState) (disk : Disk) (rows : List VersionRow) : GCAcc :=
  (get_orphaned_objects (rows.foldl pruneStep st)).foldl gcRealStep
    { db := rows.foldl pruneStep st, disk := disk, processed := 0,
      reclaimed := 0, missing := 0, skipped := 0 }

/-! ## CLI: snapshot create (cli.py lines 688-726) -/

/-- The snapshot-create command, as the list of states it commits: the
`create_snapshot` call commits the snapshot row and its entries, then a
second, separate `record_event` call commits the SNAPSHOT_CREATE event;
a duplicate name raises ALREADY_EXISTS before anything is committed. -/
def snapshot_create_cli (st : MetaState) (name : String)
    (description : Option String := none) :
    Except Unit (Nat × List MetaState) :=
  match create_snapshot st name description with
  | Except.error _ => Except.error ()
  | Except.ok (sid, st1) =>
    let st2 := record_event st1 "SNAPSHOT_CREATE" (some ("snapshot:" ++ name))
    Except.ok (sid, [st1, st2])

/-! ## CLI: snapshot restore (cli.py lines 865-943) -/

/-- The snapshot-restore report (`result` dict in the code). -/
structure SnapRestoreReport where
  files_in_snapshot : Nat
  files_restored : Nat
  files_soft_deleted : Nat
  skipped_missing_versions : Nat
  deriving Repr, DecidableEq

/-- Real-mode entry loop: an entry whose version row no longer exists is
skipped and counted; otherwise a fresh version with the same hash and
size is appended (action SNAPSHOT_RESTORE — its foreign-key failure
aborts the whole transaction) and the file undeleted. -/
def snapRestoreLoop (now : Nat) :
    List EntryRow → MetaState → Nat → Nat → Except Unit (MetaState × Nat × Nat)
  | [], st, restored, skipped => Except.ok (st, restored, skipped)
  | e :: es, st, restored, skipped =>
    match get_version st e.version_id with
    | none => snapRestoreLoop now es st restored (skipped + 1)
    | some v =>
      match create_version st e.file_id v.object_hash v.size_bytes now
          "SNAPSHOT_RESTORE" with
      | Except.error _ => Except.error ()
      | Except.ok (_, st1) =>
        snapRestoreLoop now es (set_file_deleted st1 e.file_id false)
          (restored + 1) skipped

/-- The snapshot-restore command.  Unless `keep_new`, live regular files
absent from the snapshot are soft-deleted; each entry is then restored
by the loop above; everything commits together.  In a dry run nothing is
mutated and `files_restored` is reported as the full entry count. -/
def snapshot_restore_cli (st : MetaState) (name : String)
    (keep_new dry_run : Bool) (now : Nat) :
    Except Unit (SnapRestoreReport × MetaState) :=
  match get_snapshot_by_name st name with
  | none => Except.error ()
  | some snapshot =>
    let entries := get_snapshot_entries st snapshot.id
    let snapshot_file_ids := entries.map (·.file_id)
    let active_file_ids := list_active_file_ids st
    let file_ids_to_delete :=
      if keep_new then []
      else sortBy (fun a b => a ≤ b)
        (active_file_ids.filter (fun i => !snapshot_file_ids.contains i))
    let files_soft_deleted := file_ids_to_delete.length
    if dry_run then
      Except.ok
        ({ files_in_snapshot := entries.length,
           files_restored := entries.length,
           files_soft_deleted := files_soft_deleted,
           skipped_missing_versions := 0 }, st)
    else
      let st1 := file_ids_to_delete.foldl
        (fun s i => soft_delete_file s i) st
      match snapRestoreLoop now entries st1 0 0 with
      | Except.error _ => Except.error ()
      | Except.ok (st2, restored, skipped) =>
        Except.ok
          ({ files_in_snapshot := entries.length,
             files_restored := restored,
             files_soft_deleted := files_soft_deleted,
             skipped_missing_versions := skipped },
           record_event st2 "SNAPSHOT_RESTORE" (some ("snapshot:" ++ name)))

/-! ## Operation language for the ref-count invariant

The metadata-level operations named by the ref-count law, as state
transformers starting from `initState`.  `create_file` is included so
that the version-creating operations range over more than the root
inode; a raising operation (rolled-back transaction) leaves the state
unchanged. -/

/-- One orphan-record deletion: `delete_object_record`, treating a
referential-integrity error as "skipped, still referenced". -/
def gcRecordStep (s : MetaState) (obj : ObjectRow) : MetaState :=
  match delete_object_record s obj.hash with
  | Except.error _ => s
  | Except.ok s1 => s1

/-- The GC orphan phase on the metadata store: `delete_object_record` for
every object with `ref_count ≤ 0`. -/
def gc_orphan_records (st : MetaState) : MetaState :=
  (get_orphaned_objects st).foldl gcRecordStep st

/-- One metadata operation. -/
inductive COp where
  | createF (parent_id : Nat) (name path : String) (is_dir : Bool)
  | createV (file_id : Nat) (object_hash : String) (size_bytes now : Nat)
      (action : String)
  | pruneKeep (keep_last : Nat)
  | pruneBefore (before : Nat)
  | gcOrphans
  deriving Repr

/-- Apply one operation (a raise rolls its transaction back). -/
def applyOp (st : MetaState) : COp → MetaState
  | COp.createF p n pa d => (create_file st p n pa d).2
  | COp.createV f h s t a =>
    match create_version st f h s t a with
    | Except.ok r => r.2
    | Except.error _ => st
  | COp.pruneKeep k =>
    match prune_versions_keep_last st k with
    | Except.ok r => r.2
    | Except.error _ => st
  | COp.pruneBefore t =>
    match prune_versions_before st t with
    | Except.ok r => r.2
    | Except.error _ => st
  | COp.gcOrphans => gc_orphan_records st

/-- Run a sequence of operations from the freshly initialized store. -/
def runOps (ops : List COp) : MetaState :=
  ops.foldl applyOp initState

/-! ## The ref-count invariant -/

/-- Per-hash ref-count law: each object row counts exactly the
non-deleted version rows carrying its hash. -/
def refLaw (st : MetaState) : Prop :=
  ∀ o ∈ st.objects,
    o.ref_count =
      (st.versions.countP (fun v => !v.is_deleted && v.object_hash == o.hash) : Int)

/-- The versions→objects foreign key: every version row's hash has an
object row. -/
def hashFK (st : MetaState) : Prop :=
  ∀ v ∈ st.versions, ∃ o ∈ st.objects, o.hash = v.object_hash

/-- Schema-level well-formedness the SQLite layer maintains: key
uniqueness, the versions→objects foreign key, and freshness of the id
allocator. -/
def schemaInv (st : MetaState) : Prop :=
  (st.objects.map (·.hash)).Nodup ∧
    (st.versions.map (·.id)).Nodup ∧
    hashFK st ∧
    (∀ v ∈ st.versions, v.id < st.next_version_id)

/-- The bundled invariant used for the ref-count law. -/
def Inv (st : MetaState) : Prop :=
  refLaw st ∧ schemaInv st

/-! ## Further predicates and concrete states used by the claim theorems -/

/-- Non-strict lexicographic order on the `(created_at, id)` pair. -/
def pairLe (a b : VersionRow) : Bool :=
  a.created_at < b.created_at || (a.created_at == b.created_at && a.id ≤ b.id)

/-- The engine read path for a file: resolve the live file row by path,
then its current version (`MetadataDB.get_current_version`), then the
blob (`fuse_handler.read` on a clean inode: `_get_current_hash_and_size`
followed by `ObjectStore.read_sync`). -/
def read_file (st : MetaState) (d : Disk) (path : String) : Option (List Nat) :=
  match get_file_by_path st path with
  | none => none
  | some f =>
    match get_current_version st f.id with
    | none => none
    | some v => read_sync d v.object_hash

/-- A state for exercising `list_versions`: file 2 has two live versions
whose `created_at` collide (e.g. two writes within one second). -/
def vTie1 : VersionRow :=
  { id := 1, file_id := 2, object_hash := "aa", size_bytes := 1,
    created_at := 5, is_deleted := false }

def vTie2 : VersionRow :=
  { id := 2, file_id := 2, object_hash := "aa", size_bytes := 1,
    created_at := 5, is_deleted := false }

def stTie : MetaState :=
  { files := [{ id := 1, parent_id := 1, name := "", path := "/", is_dir := true,
                current_version_id := none, is_deleted := false },
              { id := 2, parent_id := 1, name := "f", path := "/f", is_dir := false,
                current_version_id := some 2, is_deleted := false }]
    versions := [vTie1, vTie2]
    objects := [{ hash := "aa", size_bytes := 1, ref_count := 2 }]
    snapshots := []
    snapshot_entries := []
    events := []
    next_file_id := 3
    next_version_id := 3
    next_snapshot_id := 1 }

/-- A state whose directory path carries a `LIKE` wildcard: directory
`/a%` and an unrelated file `/ax/y`. -/
def stWild : MetaState :=
  { files := [{ id := 1, parent_id := 1, name := "", path := "/", is_dir := true,
                current_version_id := none, is_deleted := false },
              { id := 2, parent_id := 1, name := "a%", path := "/a%", is_dir := true,
                current_version_id := none, is_deleted := false },
              { id := 3, parent_id := 1, name := "y", path := "/ax/y", is_dir := false,
                current_version_id := none, is_deleted := false }]
    versions := []
    objects := []
    snapshots := []
    snapshot_entries := []
    events := []
    next_file_id := 4
    next_version_id := 1
    next_snapshot_id := 1 }

/-- A plain directory tree for exercising rename: `/src` with a child
`/src/main` and a sibling `/other`. -/
def stRenameOk : MetaState :=
  { files := [{ id := 1, parent_id := 1, name := "", path := "/", is_dir := true,
                current_version_id := none, is_deleted := false },
              { id := 2, parent_id := 1, name := "src", path := "/src", is_dir := true,
                current_version_id := none, is_deleted := false },
              { id := 3, parent_id := 2, name := "main", path := "/src/main",
                is_dir := false, current_version_id := none, is_deleted := false },
              { id := 4, parent_id := 1, name := "other", path := "/other",
                is_dir := false, current_version_id := none, is_deleted := false }]
    versions := []
    objects := []
    snapshots := []
    snapshot_entries := []
    events := []
    next_file_id := 5
    next_version_id := 1
    next_snapshot_id := 1 }

/-- A state in which a snapshot entry pins an old version: file 2 has
versions 1 (old, superseded) and 2 (current), and snapshot `s1` recorded
version 1. -/
def stSnapRef : MetaState :=
  { files := [{ id := 1, parent_id := 1, name := "", path := "/", is_dir := true,
                current_version_id := none, is_deleted := false },
              { id := 2, parent_id := 1, name := "f", path := "/f", is_dir := false,
                current_version_id := some 2, is_deleted := false }]
    versions := [{ id := 1, file_id := 2, object_hash := "aa", size_bytes := 1,
                   created_at := 10, is_deleted := false },
                 { id := 2, file_id := 2, object_hash := "bb", size_bytes := 1,
                   created_at := 20, is_deleted := false }]
    objects := [{ hash := "aa", size_bytes := 1, ref_count := 1 },
                { hash := "bb", size_bytes := 1, ref_count := 1 }]
    snapshots := [{ id := 1, name := "s1", description := none }]
    snapshot_entries := [{ snapshot_id := 1, file_id := 2, version_id := 1 }]
    events := []
    next_file_id := 3
    next_version_id := 3
    next_snapshot_id := 2 }

/-- The same two-version file without any snapshot. -/
def stPruneB : MetaState :=
  { files := [{ id := 1, parent_id := 1, name := "", path := "/", is_dir := true,
                current_version_id := none, is_deleted := false },
              { id := 2, parent_id := 1, name := "f", path := "/f", is_dir := false,
                current_version_id := some 2, is_deleted := false }]
    versions := [{ id := 1, file_id := 2, object_hash := "aa", size_bytes := 1,
                   created_at := 10, is_deleted := false },
                 { id := 2, file_id := 2, object_hash := "bb", size_bytes := 1,
                   created_at := 20, is_deleted := false }]
    objects := [{ hash := "aa", size_bytes := 1, ref_count := 1 },
                { hash := "bb", size_bytes := 1, ref_count := 1 }]
    snapshots := []
    snapshot_entries := []
    events := []
    next_file_id := 3
    next_version_id := 3
    next_snapshot_id := 1 }

/-- A state with one live regular file carrying a current version, ready
for a snapshot. -/
def stSnapC : MetaState :=
  { files := [{ id := 1, parent_id := 1, name := "", path := "/", is_dir := true,
                current_version_id := none, is_deleted := false },
              { id := 2, parent_id := 1, name := "a.txt", path := "/a.txt",
                is_dir := false, current_version_id := some 1, is_deleted := false }]
    versions := [{ id := 1, file_id := 2, object_hash := "aa", size_bytes := 2,
                   created_at := 10, is_deleted := false }]
    objects := [{ hash := "aa", size_bytes := 2, ref_count := 1 }]
    snapshots := []
    snapshot_entries := []
    events := []
    next_file_id := 3
    next_version_id := 2
    next_snapshot_id := 1 }

/-- A one-blob disk holding the content of object "aa". -/
def diskAA : Disk :=
  [(object_path "aa", [1, 2])]

/-- A snapshot whose second entry references a version row that has
since been pruned: entry (file 2, version 1) is intact, entry (file 3,
version 2) dangles. -/
def stSnapMiss : MetaState :=
  { files := [{ id := 1, parent_id := 1, name := "", path := "/", is_dir := true,
                current_version_id := none, is_deleted := false },
              { id := 2, parent_id := 1, name := "f", path := "/f", is_dir := false,
                current_version_id := some 1, is_deleted := false },
              { id := 3, parent_id := 1, name := "g", path := "/g", is_dir := false,
                current_version_id := none, is_deleted := false }]
    versions := [{ id := 1, file_id := 2, object_hash := "aa", size_bytes := 1,
                   created_at := 10, is_deleted := false }]
    objects := [{ hash := "aa", size_bytes := 1, ref_count := 1 }]
    snapshots := [{ id := 1, name := "s1", description := none }]
    snapshot_entries := [{ snapshot_id := 1, file_id := 2, version_id := 1 },
                         { snapshot_id := 1, file_id := 3, version_id := 2 }]
    events := []
    next_file_id := 4
    next_version_id := 3
    next_snapshot_id := 2 }

/-- The snapshot row stored in `stSnapMiss`. -/
def snapMissSnap : SnapshotRow :=
  { id := 1, name := "s1", description := none }

/-- `files.current_version_id` carries no foreign-key constraint in the
schema; this predicate states that every reference nonetheless names an
existing non-deleted version row. -/
def currentFK (st : MetaState) : Prop :=
  ∀ f ∈ st.files, ∀ vid ∈ f.current_version_id,
    ∃ v ∈ st.versions, v.id = vid ∧ v.is_deleted = false

/-- Every referenced current version is additionally the newest of its
file: rank 1 under the `(created_at DESC, id DESC)` ranking used by the
keep-last query. -/
def currentMax (st : MetaState) : Prop :=
  ∀ f ∈ st.files, ∀ vid ∈ f.current_version_id,
    ∃ v ∈ st.versions, v.id = vid ∧ v.is_deleted = false ∧ rankDesc st v = 1

/-- Per-policy precondition under which gc keeps current-version
references intact.  The keep-last ranking protects only each file's
newest rows, so that policy needs every current version to be its
file's newest; the before-cutoff query already joins away current
versions, so referential consistency of the input state suffices. -/
def gcSafePre (st : MetaState) : GCPolicy → Prop
  | GCPolicy.nonePolicy => currentFK st
  | GCPolicy.keepLast k => 1 ≤ k ∧ currentMax st
  | GCPolicy.beforeTs _ => currentFK st

/-- A deleted-marked version row still references object "aa" whose
ref_count is lawfully 0 (the ref-count law counts only non-deleted
rows): the object is an orphan candidate, but the real delete trips the
versions→objects foreign key, which counts every version row. -/
def stC3 : MetaState :=
  { files := [{ id := 1, parent_id := 1, name := "", path := "/", is_dir := true,
                current_version_id := none, is_deleted := false },
              { id := 2, parent_id := 1, name := "f", path := "/f", is_dir := false,
                current_version_id := none, is_deleted := false }]
    versions := [{ id := 1, file_id := 2, object_hash := "aa", size_bytes := 2,
                   created_at := 10, is_deleted := true }]
    objects := [{ hash := "aa", size_bytes := 2, ref_count := 0 }]
    snapshots := []
    snapshot_entries := []
    events := []
    next_file_id := 3
    next_version_id := 2
    next_snapshot_id := 1 }

/-- A one-blob disk holding a one-byte blob for object "aa". -/
def diskA1 : Disk :=
  [(object_path "aa", [7])]

/-- A live file whose `current_version_id` is the older of its two
versions; the keep-last ranking does not protect it. -/
def stC2 : MetaState :=
  { files := [{ id := 1, parent_id := 1, name := "", path := "/", is_dir := true,
                current_version_id := none, is_deleted := false },
              { id := 2, parent_id := 1, name := "f", path := "/f", is_dir := false,
                current_version_id := some 1, is_deleted := false }]
    versions := [{ id := 1, file_id := 2, object_hash := "aa", size_bytes := 1,
                   created_at := 10, is_deleted := false },
                 { id := 2, file_id := 2, object_hash := "bb", size_bytes := 1,
                   created_at := 20, is_deleted := false }]
    objects := [{ hash := "aa", size_bytes := 1, ref_count := 1 },
                { hash := "bb", size_bytes := 1, ref_count := 1 }]
    snapshots := []
    snapshot_entries := []
    events := []
    next_file_id := 3
    next_version_id := 3
    next_snapshot_id := 1 }

/-! ## Generic list lemmas -/

theorem insertSorted_perm (le : α → α → Bool) (a : α) (l : List α) :
    (insertSorted le a l).Perm (a :: l) := by
  induction l with
  | nil => simp [insertSorted]
  | cons b bs ih =>
    by_cases h : le a b
    · simp [insertSorted, h]
    · simp only [insertSorted, h, if_neg]
      exact ((ih.cons b).trans (List.Perm.swap a b bs)).symm.symm

theorem sortBy_perm (le : α → α → Bool) (l : List α) :
    (sortBy le l).Perm l := by
  induction l with
  | nil => simp [sortBy]
  | cons a as ih =>
    exact (insertSorted_perm le a (sortBy le as)).trans (ih.cons a)

theorem mem_sortBy (le : α → α → Bool) (l : List α) (a : α) :
    a ∈ sortBy le l ↔ a ∈ l :=
  (sortBy_perm le l).mem_iff

theorem pairwise_insertSorted (le : α → α → Bool)
    (htot : ∀ a b, le a b = true ∨ le b a = true)
    (htrans : ∀ a b c, le a b = true → le b c = true → le a c = true)
    (a : α) (l : List α) (hl : l.Pairwise (fun x y => le x y = true)) :
    (insertSorted le a l).Pairwise (fun x y => le x y = true) := by
  induction l with
  | nil => simp [insertSorted]
  | cons b bs ih =>
    rcases hl with _ | ⟨hb, hbs⟩
    by_cases h : le a b
    · simp only [insertSorted, h, if_pos]
      refine List.Pairwise.cons ?_ (List.Pairwise.cons hb hbs)
      intro x hx
      rcases List.mem_cons.mp hx with rfl | hx
      · exact h
      · exact htrans a b x h (hb x hx)
    · simp only [insertSorted, h, if_neg]
      refine List.Pairwise.cons ?_ (ih hbs)
      intro x hx
      rcases List.mem_cons.mp ((insertSorted_perm le a bs).mem_iff.mp hx) with rfl | hx
      · rcases htot x b with h' | h'
        · exact absurd h' h
        · exact h'
      · exact hb x hx

theorem pairwise_sortBy (le : α → α → Bool)
    (htot : ∀ a b, le a b = true ∨ le b a = true)
    (htrans : ∀ a b c, le a b = true → le b c = true → le a c = true)
    (l : List α) :
    (sortBy le l).Pairwise (fun x y => le x y = true) := by
  induction l with
  | nil => simp [sortBy]
  | cons a as ih => exact pairwise_insertSorted le htot htrans a (sortBy le as) ih

theorem countP_split (l : List α) (p q : α → Bool) :
    l.countP p = l.countP (fun a => p a && q a) + l.countP (fun a => p a && !q a) := by
  induction l with
  | nil => simp
  | cons a as ih =>
    by_cases hp : p a <;> by_cases hq : q a <;>
      simp [List.countP_cons, hp, hq, ih] <;> omega

theorem countP_sortBy (le : α → α → Bool) (l : List α) (p : α → Bool) :
    (sortBy le l).countP p = l.countP p :=
  (sortBy_perm le l).countP_eq p


/-! ### Characterizing the pruning loop -/

theorem foldl_pruneStep_versions (rows : List VersionRow) (st : MetaState) :
    (rows.foldl pruneStep st).versions =
      st.versions.filter (fun v => rows.all (fun r => r.id != v.id)) := by
  induction rows generalizing st with
  | nil => simp
  | cons r rs ih =>
    rw [List.foldl_cons, ih]
    show (pruneStep st r).versions.filter _ = _
    rw [pruneStep]
    simp only [List.filter_filter]
    apply List.filter_congr
    intro v _
    simp only [List.all_cons, bne, Bool.and_comm]
    have hcomm : (v.id == r.id) = (r.id == v.id) := by
      by_cases hvr : v.id = r.id
      · simp [hvr]
      · have h1 : (v.id == r.id) = false := by
          simp only [beq_eq_false_iff_ne]; exact hvr
        have h2 : (r.id == v.id) = false := by
          simp only [beq_eq_false_iff_ne]; exact fun hh => hvr hh.symm
        rw [h1, h2]
    rw [hcomm]

theorem foldl_pruneStep_objects (rows : List VersionRow) (st : MetaState) :
    (rows.foldl pruneStep st).objects =
      st.objects.map (fun o =>
        { o with ref_count :=
            o.ref_count - (rows.countP (fun r => r.object_hash == o.hash) : Int) }) := by
  induction rows generalizing st with
  | nil =>
    simp only [List.foldl_nil, List.countP_nil, Int.natCast_zero, sub_zero]
    generalize st.objects = l
    induction l with
    | nil => rfl
    | cons o os iho => simp_all
  | cons r rs ih =>
    rw [List.foldl_cons, ih]
    show ((pruneStep st r).objects).map _ = _
    rw [pruneStep]
    simp only [List.map_map]
    apply List.map_congr_left
    intro o _
    by_cases h : o.hash = r.object_hash
    · have hb : (r.object_hash == o.hash) = true := by
        simp [beq_iff_eq, h]
      simp only [Function.comp, if_pos h, List.countP_cons, hb]
      cases o
      simp only [ObjectRow.mk.injEq, true_and]
      push_cast
      omega
    · have hb : (r.object_hash == o.hash) = false := by
        simp only [beq_eq_false_iff_ne]
        exact fun hh => h hh.symm
      simp only [Function.comp, if_neg h, List.countP_cons, hb]
      simp

theorem foldl_pruneStep_files (rows : List VersionRow) (st : MetaState) :
    (rows.foldl pruneStep st).files = st.files := by
  induction rows generalizing st with
  | nil => rfl
  | cons r rs ih => rw [List.foldl_cons, ih]; rfl

theorem foldl_pruneStep_entries (rows : List VersionRow) (st : MetaState) :
    (rows.foldl pruneStep st).snapshot_entries = st.snapshot_entries := by
  induction rows generalizing st with
  | nil => rfl
  | cons r rs ih => rw [List.foldl_cons, ih]; rfl

theorem foldl_pruneStep_next (rows : List VersionRow) (st : MetaState) :
    (rows.foldl pruneStep st).next_version_id = st.next_version_id := by
  induction rows generalizing st with
  | nil => rfl
  | cons r rs ih => rw [List.foldl_cons, ih]; rfl

theorem mem_list_prunable_keep (st : MetaState) (k : Nat) (v : VersionRow) :
    v ∈ list_prunable_versions st k ↔
      v ∈ st.versions ∧ v.is_deleted = false ∧ k < rankDesc st v := by
  rw [list_prunable_versions, mem_sortBy, List.mem_filter]
  simp

theorem mem_list_prunable_before (st : MetaState) (t : Nat) (v : VersionRow) :
    v ∈ list_prunable_versions_before st t ↔
      v ∈ st.versions ∧ v.is_deleted = false ∧ v.created_at < t ∧
        ∀ f ∈ st.files, f.current_version_id ≠ some v.id := by
  rw [list_prunable_versions_before, mem_sortBy, List.mem_filter]
  simp [List.all_eq_true, and_assoc]

/-- Rows with distinct ids are determined by their id. -/
theorem eq_of_id_eq_of_nodup {l : List VersionRow}
    (hnd : (l.map (·.id)).Nodup) {a b : VersionRow}
    (ha : a ∈ l) (hb : b ∈ l) (hab : a.id = b.id) : a = b :=
  List.inj_on_of_nodup_map hnd ha hb hab

/-- In both pruning policies the victim list is a sorted filter of the
versions table; after the loop, a version row survives exactly when the
filter predicate rejects it (ids are unique). -/
theorem versions_after_prune (st : MetaState) (p : VersionRow → Bool)
    (le : VersionRow → VersionRow → Bool)
    (hnd : (st.versions.map (·.id)).Nodup) (v : VersionRow)
    (hv : v ∈ st.versions) :
    ((sortBy le (st.versions.filter p)).all (fun r => r.id != v.id)) = !(p v) := by
  by_cases hpv : p v = true
  · have hvmem : v ∈ sortBy le (st.versions.filter p) := by
      rw [mem_sortBy, List.mem_filter]
      exact ⟨hv, hpv⟩
    have : ¬ ((sortBy le (st.versions.filter p)).all (fun r => r.id != v.id) = true) := by
      intro hall
      have := List.all_eq_true.mp hall v hvmem
      simp at this
    simp only [hpv, Bool.not_true]
    exact Bool.eq_false_iff.mpr this
  · have hpv' : p v = false := Bool.eq_false_iff.mpr hpv
    simp only [hpv', Bool.not_false]
    rw [List.all_eq_true]
    intro r hr
    rw [mem_sortBy, List.mem_filter] at hr
    have hrv : r ≠ v := by
      intro hEq
      rw [hEq] at hr
      rw [hr.2] at hpv'
      exact Bool.noConfusion hpv'
    have : r.id ≠ v.id := fun hid =>
      hrv (eq_of_id_eq_of_nodup hnd hr.1 hv hid)
    simp [this]

/-- The per-hash ref-count law survives a pruning pass: deleting each
victim row while decrementing its object leaves every object row
counting exactly the remaining non-deleted rows with its hash. -/
theorem refLaw_after_prune (st : MetaState) (p : VersionRow → Bool)
    (le : VersionRow → VersionRow → Bool)
    (hp : ∀ v, p v = true → v.is_deleted = false)
    (hnd : (st.versions.map (·.id)).Nodup)
    (hLaw : refLaw st) :
    refLaw ((sortBy le (st.versions.filter p)).foldl pruneStep st) := by
  intro o' ho'
  rw [foldl_pruneStep_objects] at ho'
  rcases List.mem_map.mp ho' with ⟨o, ho, rfl⟩
  rw [foldl_pruneStep_versions]
  have hrowsCount :
      (sortBy le (st.versions.filter p)).countP (fun r => r.object_hash == o.hash) =
        st.versions.countP (fun r => r.object_hash == o.hash && p r) := by
    rw [countP_sortBy, List.countP_filter]
  have hkeep :
      (st.versions.filter (fun v =>
          (sortBy le (st.versions.filter p)).all (fun r => r.id != v.id))).countP
          (fun v => !v.is_deleted && v.object_hash == o.hash) =
        st.versions.countP
          (fun v => (!v.is_deleted && v.object_hash == o.hash) && !(p v)) := by
    rw [List.countP_filter]
    apply List.countP_congr
    intro v hv
    rw [versions_after_prune st p le hnd v hv]
  have hsplit := countP_split st.versions
    (fun v => !v.is_deleted && v.object_hash == o.hash) (fun v => p v)
  have hq : st.versions.countP
      (fun v => (!v.is_deleted && v.object_hash == o.hash) && p v) =
        st.versions.countP (fun r => r.object_hash == o.hash && p r) := by
    apply List.countP_congr
    intro v _
    by_cases hpv : p v = true
    · simp [hpv, hp v hpv]
    · have : p v = false := Bool.eq_false_iff.mpr hpv
      simp [this]
  have hlaw := hLaw o ho
  simp only at *
  rw [hkeep, hrowsCount, hlaw]
  rw [← hq] at *
  omega

theorem hashFK_after_prune (st : MetaState) (rows : List VersionRow)
    (hFK : hashFK st) : hashFK (rows.foldl pruneStep st) := by
  intro v hv
  rw [foldl_pruneStep_versions] at hv
  rcases hFK v (List.mem_filter.mp hv).1 with ⟨o, ho, hoh⟩
  refine ⟨{ o with ref_count :=
    o.ref_count - (rows.countP (fun r => r.object_hash == o.hash) : Int) }, ?_, hoh⟩
  rw [foldl_pruneStep_objects]
  exact List.mem_map.mpr ⟨o, ho, rfl⟩

theorem nodupHash_after_prune (st : MetaState) (rows : List VersionRow)
    (hnd : (st.objects.map (·.hash)).Nodup) :
    ((rows.foldl pruneStep st).objects.map (·.hash)).Nodup := by
  rw [foldl_pruneStep_objects, List.map_map]
  exact hnd

theorem nodupId_after_prune (st : MetaState) (rows : List VersionRow)
    (hnd : (st.versions.map (·.id)).Nodup) :
    ((rows.foldl pruneStep st).versions.map (·.id)).Nodup := by
  rw [foldl_pruneStep_versions]
  exact ((List.filter_sublist _).map _).nodup hnd

theorem idBound_after_prune (st : MetaState) (rows : List VersionRow)
    (hb : ∀ v ∈ st.versions, v.id < st.next_version_id) :
    ∀ v ∈ (rows.foldl pruneStep st).versions,
      v.id < (rows.foldl pruneStep st).next_version_id := by
  intro v hv
  rw [foldl_pruneStep_versions] at hv
  rw [foldl_pruneStep_next]
  exact hb v (List.mem_filter.mp hv).1

/-! ### Effect of `create_version` on the invariant tables -/

theorem create_version_ok_state (st : MetaState) (fid : Nat) (h : String)
    (sz now : Nat) (act : String) (res : Nat × MetaState)
    (hok : create_version st fid h sz now act = Except.ok res) :
    res.2.versions = st.versions ++
        [{ id := st.next_version_id, file_id := fid, object_hash := h,
           size_bytes := sz, created_at := now, is_deleted := false }] ∧
      res.2.objects =
        (if st.objects.any (fun o => o.hash == h) then
          st.objects.map (fun o =>
            if o.hash = h then { o with ref_count := o.ref_count + 1 } else o)
        else
          st.objects ++ [{ hash := h, size_bytes := sz, ref_count := 1 }]) ∧
      res.2.next_version_id = st.next_version_id + 1 ∧
      res.2.snapshot_entries = st.snapshot_entries ∧
      res.2.files = st.files.map (fun f =>
        if f.id = fid then { f with current_version_id := some st.next_version_id }
        else f) ∧
      res.1 = st.next_version_id := by
  rw [create_version] at hok
  by_cases hex : st.files.any (fun f => f.id == fid)
  · rw [if_pos hex] at hok
    cases hok
    refine ⟨rfl, ?_, rfl, rfl, rfl, rfl⟩
    by_cases hobj : st.objects.any (fun o => o.hash == h)
    · rw [if_pos hobj]; rfl
    · rw [if_neg hobj]; rfl
  · rw [if_neg hex] at hok
    exact Except.noConfusion hok

theorem refLaw_create_version (st : MetaState) (fid : Nat) (h : String)
    (sz now : Nat) (act : String) (res : Nat × MetaState)
    (hok : create_version st fid h sz now act = Except.ok res)
    (hLaw : refLaw st) (hFK : hashFK st) : refLaw res.2 := by
  obtain ⟨hv, ho, -, -, -, -⟩ := create_version_ok_state st fid h sz now act res hok
  have hcnt : ∀ s : String,
      List.countP (fun v => !v.is_deleted && v.object_hash == s)
        [({ id := st.next_version_id, file_id := fid, object_hash := h,
            size_bytes := sz, created_at := now, is_deleted := false } : VersionRow)] =
        if h = s then 1 else 0 := by
    intro s
    by_cases hs : h = s <;> simp [List.countP_cons, hs]
  intro o' ho'
  rw [ho] at ho'
  rw [hv, List.countP_append]
  by_cases hobj : st.objects.any (fun o => o.hash == h)
  · rw [if_pos hobj] at ho'
    rcases List.mem_map.mp ho' with ⟨o, hom, rfl⟩
    have hlaw := hLaw o hom
    rcases o with ⟨ohash, osz, orc⟩
    dsimp only at hlaw ⊢
    by_cases hoh : ohash = h
    · rw [if_pos hoh]
      dsimp only
      rw [hcnt, if_pos hoh.symm]
      omega
    · rw [if_neg hoh]
      dsimp only
      rw [hcnt, if_neg (fun hh => hoh hh.symm)]
      omega
  · rw [if_neg hobj] at ho'
    rcases List.mem_append.mp ho' with hom | hnew
    · have hlaw := hLaw o' hom
      have hoh : ¬ h = o'.hash := by
        intro hh
        exact hobj (List.any_eq_true.mpr ⟨o', hom, by simp [hh.symm]⟩)
      rw [hcnt, if_neg hoh]
      omega
    · rcases List.mem_singleton.mp hnew with rfl
      have hcv : st.versions.countP
          (fun v => !v.is_deleted &&
            v.object_hash ==
              ({ hash := h, size_bytes := sz, ref_count := 1 } : ObjectRow).hash) = 0 := by
        apply List.countP_eq_zero.mpr
        intro v hvm hcontra
        rcases hFK v hvm with ⟨o, hom, hohash⟩
        have hvh : v.object_hash = h := by
          simp only [Bool.and_eq_true, beq_iff_eq] at hcontra
          exact hcontra.2
        exact hobj (List.any_eq_true.mpr ⟨o, hom, by simp [hohash, hvh]⟩)
      rw [hcv, hcnt]
      dsimp only
      rw [if_pos rfl]
      simp

theorem schemaInv_create_version (st : MetaState) (fid : Nat) (h : String)
    (sz now : Nat) (act : String) (res : Nat × MetaState)
    (hok : create_version st fid h sz now act = Except.ok res)
    (hS : schemaInv st) : schemaInv res.2 := by
  obtain ⟨hv, ho, hn, -, -, -⟩ := create_version_ok_state st fid h sz now act res hok
  obtain ⟨hndH, hndI, hFK, hBound⟩ := hS
  refine ⟨?_, ?_, ?_, ?_⟩
  · rw [ho]
    by_cases hobj : st.objects.any (fun o => o.hash == h)
    · rw [if_pos hobj, List.map_map]
      have : ((fun o : ObjectRow => o.hash) ∘ fun o =>
          if o.hash = h then { o with ref_count := o.ref_count + 1 } else o) =
            fun o : ObjectRow => o.hash := by
        funext o
        by_cases hoh : o.hash = h <;> simp [Function.comp, hoh]
      rw [this]
      exact hndH
    · rw [if_neg hobj, List.map_append]
      simp only [List.map_cons, List.map_nil]
      rw [List.nodup_append]
      refine ⟨hndH, List.nodup_singleton _, ?_⟩
      intro a ha hb
      rcases List.mem_map.mp ha with ⟨o, hom, rfl⟩
      have h2 : o.hash = h := List.mem_singleton.mp hb
      exact hobj (List.any_eq_true.mpr ⟨o, hom, by simp [h2]⟩)
  · rw [hv, List.map_append]
    simp only [List.map_cons, List.map_nil]
    rw [List.nodup_append]
    refine ⟨hndI, List.nodup_singleton _, ?_⟩
    intro a ha hb
    rcases List.mem_map.mp ha with ⟨w, hwm, rfl⟩
    have h2 : w.id = st.next_version_id := List.mem_singleton.mp hb
    have := hBound w hwm
    omega
  · intro v hvm
    rw [hv] at hvm
    rcases List.mem_append.mp hvm with hold | hnew
    · rcases hFK v hold with ⟨o, hom, hoh⟩
      rw [ho]
      by_cases hobj : st.objects.any (fun o => o.hash == h)
      · rw [if_pos hobj]
        by_cases hoh2 : o.hash = h
        · exact ⟨{ o with ref_count := o.ref_count + 1 },
            List.mem_map.mpr ⟨o, hom, by rw [if_pos hoh2]⟩, hoh ▸ rfl⟩
        · exact ⟨o, List.mem_map.mpr ⟨o, hom, by rw [if_neg hoh2]⟩, hoh⟩
      · rw [if_neg hobj]
        exact ⟨o, List.mem_append_left _ hom, hoh⟩
    · rcases List.mem_singleton.mp hnew with rfl
      rw [ho]
      by_cases hobj : st.objects.any (fun o => o.hash == h)
      · rw [if_pos hobj]
        rcases List.any_eq_true.mp hobj with ⟨o, hom, hoh⟩
        have hoh' : o.hash = h := beq_iff_eq.mp hoh
        exact ⟨{ o with ref_count := o.ref_count + 1 },
          List.mem_map.mpr ⟨o, hom, by rw [if_pos hoh']⟩, hoh'⟩
      · rw [if_neg hobj]
        exact ⟨{ hash := h, size_bytes := sz, ref_count := 1 },
          List.mem_append_right _ (List.mem_singleton_self _), rfl⟩
  · intro v hvm
    rw [hv] at hvm
    rw [hn]
    rcases List.mem_append.mp hvm with hold | hnew
    · have := hBound v hold
      omega
    · rcases List.mem_singleton.mp hnew with rfl
      show st.next_version_id < st.next_version_id + 1
      omega

/-! ### Effect of the orphan phase on the invariant tables -/

theorem gcRecordStep_versions (s : MetaState) (obj : ObjectRow) :
    (gcRecordStep s obj).versions = s.versions := by
  rw [gcRecordStep, delete_object_record]
  by_cases hc : s.versions.any (fun v => v.object_hash == obj.hash)
  · rw [if_pos hc]
  · rw [if_neg hc]

theorem gcRecordStep_next (s : MetaState) (obj : ObjectRow) :
    (gcRecordStep s obj).next_version_id = s.next_version_id := by
  rw [gcRecordStep, delete_object_record]
  by_cases hc : s.versions.any (fun v => v.object_hash == obj.hash)
  · rw [if_pos hc]
  · rw [if_neg hc]

theorem gcRecordStep_objects_sublist (s : MetaState) (obj : ObjectRow) :
    (gcRecordStep s obj).objects.Sublist s.objects := by
  rw [gcRecordStep, delete_object_record]
  by_cases hc : s.versions.any (fun v => v.object_hash == obj.hash)
  · rw [if_pos hc]
  · rw [if_neg hc]
    exact List.filter_sublist _

/-- A deletion step never removes an object row some version still
references: either the step is skipped outright, or the deleted hash is
unreferenced and therefore differs from the hash of the kept row. -/
theorem gcRecordStep_keeps_referenced (s : MetaState) (obj : ObjectRow)
    (o : ObjectRow) (ho : o ∈ s.objects)
    (href : ∃ v ∈ s.versions, v.object_hash = o.hash) :
    o ∈ (gcRecordStep s obj).objects := by
  rw [gcRecordStep, delete_object_record]
  by_cases hc : s.versions.any (fun v => v.object_hash == obj.hash)
  · rw [if_pos hc]
    exact ho
  · rw [if_neg hc]
    rcases href with ⟨v, hvm, hvh⟩
    refine List.mem_filter.mpr ⟨ho, ?_⟩
    simp only [bne_iff_ne, ne_eq]
    intro hEq
    exact hc (List.any_eq_true.mpr ⟨v, hvm, by simp [hvh, hEq]⟩)

theorem foldl_gcRecordStep_versions (objs : List ObjectRow) (st : MetaState) :
    (objs.foldl gcRecordStep st).versions = st.versions := by
  induction objs generalizing st with
  | nil => rfl
  | cons o os ih => rw [List.foldl_cons, ih, gcRecordStep_versions]

theorem foldl_gcRecordStep_next (objs : List ObjectRow) (st : MetaState) :
    (objs.foldl gcRecordStep st).next_version_id = st.next_version_id := by
  induction objs generalizing st with
  | nil => rfl
  | cons o os ih => rw [List.foldl_cons, ih, gcRecordStep_next]

theorem foldl_gcRecordStep_objects_sublist (objs : List ObjectRow) (st : MetaState) :
    (objs.foldl gcRecordStep st).objects.Sublist st.objects := by
  induction objs generalizing st with
  | nil => exact List.Sublist.refl _
  | cons o os ih =>
    rw [List.foldl_cons]
    exact (ih (gcRecordStep st o)).trans (gcRecordStep_objects_sublist st o)

theorem foldl_gcRecordStep_keeps_referenced (objs : List ObjectRow)
    (st : MetaState) (o : ObjectRow) (ho : o ∈ st.objects)
    (href : ∃ v ∈ st.versions, v.object_hash = o.hash) :
    o ∈ (objs.foldl gcRecordStep st).objects := by
  induction objs generalizing st with
  | nil => exact ho
  | cons obj os ih =>
    rw [List.foldl_cons]
    refine ih (gcRecordStep st obj)
      (gcRecordStep_keeps_referenced st obj o ho href) ?_
    rw [gcRecordStep_versions]
    exact href

/-! ### Invariant preservation over the operation language -/


theorem Inv_initState : Inv initState := by
  constructor
  · intro o ho
    simp [initState] at ho
  · refine ⟨?_, ?_, ?_, ?_⟩ <;> simp [initState, hashFK]

theorem Inv_create_file (st : MetaState) (p : Nat) (n pa : String) (d : Bool)
    (hI : Inv st) : Inv (create_file st p n pa d).2 := by
  obtain ⟨hLaw, hndH, hndI, hFK, hBound⟩ := hI
  exact ⟨hLaw, hndH, hndI, hFK, hBound⟩

theorem Inv_prune (st : MetaState) (p : VersionRow → Bool)
    (le : VersionRow → VersionRow → Bool)
    (hp : ∀ v, p v = true → v.is_deleted = false)
    (hI : Inv st) :
    Inv ((sortBy le (st.versions.filter p)).foldl pruneStep st) := by
  obtain ⟨hLaw, hndH, hndI, hFK, hBound⟩ := hI
  exact ⟨refLaw_after_prune st p le hp hndI hLaw,
    nodupHash_after_prune st _ hndH,
    nodupId_after_prune st _ hndI,
    hashFK_after_prune st _ hFK,
    idBound_after_prune st _ hBound⟩

theorem Inv_gc_orphans (st : MetaState) (hI : Inv st) :
    Inv (gc_orphan_records st) := by
  obtain ⟨hLaw, hndH, hndI, hFK, hBound⟩ := hI
  rw [gc_orphan_records]
  refine ⟨?_, ?_, ?_, ?_, ?_⟩
  · intro o ho
    rw [foldl_gcRecordStep_versions]
    exact hLaw o ((foldl_gcRecordStep_objects_sublist _ st).mem ho)
  · exact ((foldl_gcRecordStep_objects_sublist _ st).map _).nodup hndH
  · rw [foldl_gcRecordStep_versions]
    exact hndI
  · intro v hv
    rw [foldl_gcRecordStep_versions] at hv
    rcases hFK v hv with ⟨o, ho, hoh⟩
    exact ⟨o, foldl_gcRecordStep_keeps_referenced _ st o ho ⟨v, hv, hoh.symm⟩, hoh⟩
  · intro v hv
    rw [foldl_gcRecordStep_versions] at hv
    rw [foldl_gcRecordStep_next]
    exact hBound v hv

theorem Inv_applyOp (st : MetaState) (op : COp) (hI : Inv st) :
    Inv (applyOp st op) := by
  cases op with
  | createF p n pa d => exact Inv_create_file st p n pa d hI
  | createV f h s t a =>
    rw [applyOp]
    cases hok : create_version st f h s t a with
    | error e => exact hI
    | ok r =>
      exact ⟨refLaw_create_version st f h s t a r hok hI.1 hI.2.2.2.1,
        schemaInv_create_version st f h s t a r hok hI.2⟩
  | pruneKeep k =>
    rw [applyOp, prune_versions_keep_last]
    cases hok : pruneRows st (list_prunable_versions st k) with
    | error e => exact hI
    | ok st1 =>
      rw [pruneRows] at hok
      by_cases hfk : (list_prunable_versions st k).any
          (fun r => st.snapshot_entries.any (fun e => e.version_id == r.id))
      · rw [if_pos hfk] at hok
        exact Except.noConfusion hok
      · rw [if_neg hfk] at hok
        cases hok
        exact Inv_prune st _ _ (fun v hv => by
          simp only [Bool.and_eq_true, Bool.not_eq_true'] at hv
          exact hv.1) hI
  | pruneBefore t =>
    rw [applyOp, prune_versions_before]
    cases hok : pruneRows st (list_prunable_versions_before st t) with
    | error e => exact hI
    | ok st1 =>
      rw [pruneRows] at hok
      by_cases hfk : (list_prunable_versions_before st t).any
          (fun r => st.snapshot_entries.any (fun e => e.version_id == r.id))
      · rw [if_pos hfk] at hok
        exact Except.noConfusion hok
      · rw [if_neg hfk] at hok
        cases hok
        exact Inv_prune st _ _ (fun v hv => by
          simp only [Bool.and_eq_true, Bool.not_eq_true'] at hv
          exact hv.1.1) hI
  | gcOrphans => exact Inv_gc_orphans st hI

/-- Summing the per-hash law over rows with distinct hashes that cover
every non-deleted version yields the global count. -/
theorem sum_refCounts (objects : List ObjectRow) (versions : List VersionRow)
    (hLaw : ∀ o ∈ objects,
      o.ref_count =
        (versions.countP (fun v => !v.is_deleted && v.object_hash == o.hash) : Int))
    (hnd : (objects.map (·.hash)).Nodup)
    (hmem : ∀ v ∈ versions, v.is_deleted = false →
      v.object_hash ∈ objects.map (·.hash)) :
    (objects.map (·.ref_count)).sum =
      (versions.countP (fun v => !v.is_deleted) : Int) := by
  induction objects generalizing versions with
  | nil =>
    simp only [List.map_nil, List.sum_nil]
    have : versions.countP (fun v => !v.is_deleted) = 0 := by
      apply List.countP_eq_zero.mpr
      intro v hv hdel
      have := hmem v hv (by simpa using hdel)
      simp at this
    rw [this]
    simp
  | cons o os ih =>
    simp only [List.map_cons, List.sum_cons]
    rw [List.map_cons] at hnd
    have hoh : o.hash ∉ os.map (·.hash) := (List.nodup_cons.mp hnd).1
    have hndtail : (os.map (·.hash)).Nodup := (List.nodup_cons.mp hnd).2
    have htail : (os.map (·.ref_count)).sum =
        ((versions.filter (fun v => !(v.object_hash == o.hash))).countP
          (fun v => !v.is_deleted) : Int) := by
      apply ih
      · intro o' ho'
        rw [hLaw o' (List.mem_cons_of_mem o ho')]
        congr 1
        rw [List.countP_filter]
        apply List.countP_congr
        intro v _
        have hne' : o'.hash ≠ o.hash := fun hEq =>
          hoh (hEq ▸ List.mem_map.mpr ⟨o', ho', rfl⟩)
        by_cases hvh : v.object_hash = o'.hash
        · simp [hvh, hne']
        · have hf : (v.object_hash == o'.hash) = false := by
            simp only [beq_eq_false_iff_ne]; exact hvh
          simp [hf]
      · exact hndtail
      · intro v hv hdel
        rcases List.mem_filter.mp hv with ⟨hvm, hvne⟩
        have := hmem v hvm hdel
        rw [List.map_cons] at this
        rcases List.mem_cons.mp this with hhead | htail2
        · exfalso
          simp only [Bool.not_eq_true'] at hvne
          rw [beq_eq_false_iff_ne] at hvne
          exact hvne hhead
        · exact htail2
    have hsplit := countP_split versions (fun v => !v.is_deleted)
      (fun v => v.object_hash == o.hash)
    have hfilter : (versions.filter (fun v => !(v.object_hash == o.hash))).countP
        (fun v => !v.is_deleted) =
          versions.countP (fun v => !v.is_deleted && !(v.object_hash == o.hash)) := by
      rw [List.countP_filter]
    rw [hLaw o (List.mem_cons_self o os), htail, hfilter]
    omega

theorem Inv_runOps (ops : List COp) : Inv (runOps ops) := by
  rw [runOps]
  have main : ∀ (l : List COp) (s : MetaState), Inv s → Inv (l.foldl applyOp s) := by
    intro l
    induction l with
    | nil => intro s hs; exact hs
    | cons op l ih => intro s hs; exact ih _ (Inv_applyOp s op hs)
  exact main ops initState Inv_initState

/-! ## Claim theorems -/

/-- Claim C1 — ref-count law.  Starting from a freshly initialized
metadata store, after any sequence of the operations `create_version`
(any action tag), `prune_versions_keep_last`, `prune_versions_before`
and the GC orphan phase (`delete_object_record` of the objects with
`ref_count ≤ 0`; the sequence may also create files so that versions
attach to more than the root inode), every object row's `ref_count`
equals the number of non-deleted version rows carrying its hash, and the
ref_counts sum to the total number of non-deleted version rows. -/
theorem C1_refcount_law (ops : List COp) :
    (∀ o ∈ (runOps ops).objects,
        o.ref_count =
          (((runOps ops).versions.countP
            (fun v => !v.is_deleted && v.object_hash == o.hash)) : Int)) ∧
      ((runOps ops).objects.map (·.ref_count)).sum =
        ((((runOps ops).versions.filter (fun v => !v.is_deleted)).length : Nat) : Int) := by
  have hI := Inv_runOps ops
  obtain ⟨hLaw, hndH, hndI, hFK, hBound⟩ := hI
  constructor
  · exact hLaw
  · rw [← List.countP_eq_length_filter]
    apply sum_refCounts (runOps ops).objects (runOps ops).versions hLaw hndH
    intro v hv _
    rcases hFK v hv with ⟨o, ho, hoh⟩
    exact List.mem_map.mpr ⟨o, ho, hoh⟩

/-- Claim C8, counterexample.  The claim asserts that `list_versions`
returns the rows sorted ascending by the pair `(created_at, id)`, ties
in ascending id order.  The query orders by `created_at` alone, and SQL
leaves the relative order of equal keys to the engine: in the state
`stTie`, the output `[vTie2, vTie1]` satisfies everything the query
specifies (`listVersionsQuery`) yet lists two rows with equal
`created_at` in descending id order. -/
theorem C8_counterexample :
    listVersionsQuery stTie 2 [vTie2, vTie1] ∧
      ¬ ([vTie2, vTie1].Pairwise (fun a b => pairLe a b = true)) := by
  refine ⟨⟨?_, ?_⟩, ?_⟩ <;> decide

/-- Claim C8, amended — version list order.  `list_versions` returns
exactly the file's non-deleted version rows, sorted ascending by
`created_at`; the relative order of rows sharing a `created_at` is not
specified by the query (the implementation realizes it as a stable sort
in rowid order). -/
theorem C8_amended (st : MetaState) (fid : Nat) :
    listVersionsQuery st fid (list_versions st fid) ∧
      ∀ v, v ∈ list_versions st fid ↔
        v ∈ st.versions ∧ v.file_id = fid ∧ v.is_deleted = false := by
  refine ⟨⟨sortBy_perm _ _, ?_⟩, ?_⟩
  · apply pairwise_sortBy
    · intro a b
      simp only [leCreated, decide_eq_true_eq]
      omega
    · intro a b c
      simp only [leCreated, decide_eq_true_eq]
      omega
  · intro v
    rw [list_versions, mem_sortBy, List.mem_filter]
    simp

set_option maxRecDepth 10000 in
/-- Validation of the SHA-256 embedding against the well-known digest of
the empty input, which object_store.py records as `EMPTY_HASH`. -/
theorem compute_hash_nil_eq : compute_hash [] = EMPTY_HASH := by decide

theorem hexChar_mem (n : Nat) :
    hexChar (n % 16) ∈ "0123456789abcdef".toList := by
  have h : n % 16 < 16 := Nat.mod_lt _ (by omega)
  set m := n % 16 with hm
  interval_cases m <;> decide

theorem compute_hash_chars (data : List Nat) :
    ∀ c ∈ (compute_hash data).toList, c ∈ "0123456789abcdef".toList := by
  intro c hc
  rw [compute_hash] at hc
  have hc' : c ∈ ((sha256Blocks (sha256Pad data) []).foldl
      sha256Block sha256H0).flatMap wordToHex := hc
  rcases List.mem_flatMap.mp hc' with ⟨w, -, hcw⟩
  rw [wordToHex] at hcw
  rcases List.mem_map.mp hcw with ⟨i, -, rfl⟩
  exact hexChar_mem _

theorem diskLookup_append_self (d : Disk) (p : List Char × List Char)
    (b : List Nat) (hnone : diskLookup d p = none) :
    diskLookup (d ++ [(p, b)]) p = some b := by
  induction d with
  | nil => simp [diskLookup]
  | cons e d ih =>
    rw [diskLookup, List.find?_cons] at hnone
    cases he : (e.1 == p)
    · rw [he] at hnone
      rw [List.cons_append, diskLookup, List.find?_cons, he]
      exact ih hnone
    · rw [he] at hnone
      simp at hnone

/-- Claim C9 — object store put/get round-trip and dedup.  On any disk
whose blob at the target path (if present) is the data itself:
`store_sync` returns the lower-case hex SHA-256 digest of the data;
`read_sync` of that hash then returns the data; a second `store_sync` of
the same data returns the same hash and leaves the store unchanged; and
`read_sync` of any hash whose path holds no blob is the missing-blob
error (`none`). -/
theorem C9_store_roundtrip (data : List Nat) (d : Disk)
    (hprior : ∀ b, diskLookup d (object_path (compute_hash data)) = some b →
      b = data) :
    (store_sync d data).1 = compute_hash data ∧
      (∀ c ∈ (store_sync d data).1.toList, c ∈ "0123456789abcdef".toList) ∧
      read_sync (store_sync d data).2 (compute_hash data) = some data ∧
      store_sync (store_sync d data).2 data =
        (compute_hash data, (store_sync d data).2) ∧
      (∀ g : String, diskLookup (store_sync d data).2 (object_path g) = none →
        read_sync (store_sync d data).2 g = none) := by
  have h1 : (store_sync d data).1 = compute_hash data := by
    rw [store_sync]
    split <;> rfl
  have h3 : read_sync (store_sync d data).2 (compute_hash data) = some data := by
    rw [store_sync, read_sync]
    cases hl : diskLookup d (object_path (compute_hash data)) with
    | none =>
      simp only [Option.isSome_none]
      rw [if_neg (show ¬(false = true) by simp)]
      exact diskLookup_append_self d _ data hl
    | some b =>
      simp only [Option.isSome_some]
      rw [if_pos trivial]
      rw [hl, hprior b hl]
  constructor
  · exact h1
  refine ⟨?_, h3, ?_, ?_⟩
  · rw [h1]
    exact compute_hash_chars data
  · rw [store_sync]
    have : (diskLookup (store_sync d data).2
        (object_path (compute_hash data))).isSome = true := by
      rw [show diskLookup (store_sync d data).2 (object_path (compute_hash data)) =
        read_sync (store_sync d data).2 (compute_hash data) from rfl, h3]
      rfl
    rw [if_pos this]
  · exact fun g hg => hg

/-- Claim C9 witness: storing the byte string "x" on an empty store and
reading it back. -/
theorem C9_store_roundtrip_witness :
    read_sync (store_sync [] [120]).2 (compute_hash [120]) = some [120] :=
  (C9_store_roundtrip [120] [] (fun _ hb => Option.noConfusion hb)).2.2.1

/-! ### `LIKE` matching lemmas -/

theorem self_mem_tails (l : List Char) : l ∈ l.tails := by
  cases l with
  | nil => simp
  | cons a t => rw [List.tails_cons]; exact List.mem_cons_self _ _

theorem likeMatch_cons_eq (c : Char) (ps s : List Char) :
    likeMatch (c :: ps) s =
      if c = '%' then s.tails.any (fun t => likeMatch ps t)
      else
        match s with
        | [] => false
        | d :: ds =>
          if c = '_' then likeMatch ps ds
          else asciiLower c = asciiLower d && likeMatch ps ds := rfl

/-- A pattern that is a literal copy of a prefix of the candidate,
followed by `%`, always matches. -/
theorem likeMatch_literal_append (xs t : List Char) :
    likeMatch (xs ++ ['%']) (xs ++ t) = true := by
  induction xs generalizing t with
  | nil =>
    show likeMatch ['%'] t = true
    rw [likeMatch_cons_eq, if_pos rfl]
    refine List.any_eq_true.mpr ⟨[], ?_, rfl⟩
    cases t with
    | nil => simp
    | cons a t' => exact (List.mem_tails _ _).mpr List.nil_suffix
  | cons c cs ih =>
    rw [List.cons_append, List.cons_append, likeMatch_cons_eq]
    by_cases hc : c = '%'
    · rw [if_pos hc]
      refine List.any_eq_true.mpr ⟨cs ++ t, ?_, ih t⟩
      rw [List.tails_cons]
      exact List.mem_cons_of_mem _ (self_mem_tails _)
    · rw [if_neg hc]
      show (if c = '_' then likeMatch (cs ++ ['%']) (cs ++ t)
        else asciiLower c = asciiLower c && likeMatch (cs ++ ['%']) (cs ++ t)) = true
      by_cases hu : c = '_'
      · rw [if_pos hu]
        exact ih t
      · rw [if_neg hu]
        simp [ih t]

theorem likeMatch_of_startsWith (old : String) (p : List Char) (t : List Char)
    (hp : p = old.toList ++ '/' :: t) :
    likeMatch (renamePattern old) p = true := by
  rw [renamePattern, hp]
  have : old.toList ++ '/' :: t = (old.toList ++ ['/']) ++ t := by simp
  rw [this]
  have h2 : old.toList ++ ['/', '%'] = (old.toList ++ ['/']) ++ ['%'] := by simp
  rw [h2]
  exact likeMatch_literal_append _ _

/-! ### C7 -/

/-- When the row-by-row descendant UPDATE finishes without tripping the
UNIQUE index, its net effect is the plain prefix-rewriting map over the
table. -/
theorem renameSweep_ok (pat : List Char) (old_len : Nat) (new_path : String) :
    ∀ (rest acc out : List FileRow),
      renameSweep pat old_len new_path acc rest = Except.ok out →
      out = acc ++ rest.map (fun f =>
        if likeMatch pat f.path.toList then
          { f with path := new_path ++ f.path.drop old_len }
        else f) := by
  intro rest
  induction rest with
  | nil =>
    intro acc out hok
    rw [renameSweep] at hok
    obtain rfl : acc = out := Except.ok.inj hok
    simp
  | cons f fs ih =>
    intro acc out hok
    rw [renameSweep] at hok
    by_cases hm : likeMatch pat f.path.toList = true
    · rw [if_pos hm] at hok
      by_cases hc : ((acc ++ fs).any
          (fun g => g.path == new_path ++ f.path.drop old_len)) = true
      · rw [if_pos hc] at hok
        exact Except.noConfusion hok
      · rw [if_neg hc] at hok
        rw [ih _ _ hok, List.map_cons, if_pos hm]
        simp
    · rw [if_neg hm] at hok
      rw [ih _ _ hok, List.map_cons, if_neg hm]
      simp

/-- Claim C7, counterexample.  The rename UPDATE selects descendants
with `path LIKE old_path || '/%'`; with a directory named `/a%` the `%`
inside the old path acts as a wildcard, so the unrelated file `/ax/y`
(whose path does not start with `/a%/`) is also rewritten: renaming
`/a%` to `/b` succeeds and moves `/ax/y` to `/b/y`. -/
theorem C7_counterexample :
    ("/a%" ++ "/").toList.isPrefixOf "/ax/y".toList = false ∧
      (∃ f ∈ stWild.files, f.id = 3 ∧ f.path = "/ax/y") ∧
      (rename_file stWild 2 1 "b" "/b").toOption.map
        (fun s => s.files.any (fun f => f.id == 3 && f.path == "/b/y")) =
        some true := by
  refine ⟨by decide, by decide, by decide⟩

/-- Claim C7, amended — rename recursion.  Renaming a live directory
updates its own parent/name/path and rewrites exactly those other rows
whose path matches `old_path || '/%'` under SQLite `LIKE` semantics
(`%` any sequence, `_` any single character, ASCII case-insensitive),
replacing the first `len(old_path)` characters with the new path; rows
that do not match keep their paths, every row keeps its id, and every
literal descendant (path = old_path ++ "/" ++ rest) matches and is
rewritten to new_path ++ "/" ++ rest.  (For old paths free of `LIKE`
metacharacters and case collisions the matching rows are exactly the
literal descendants; the hypothesis on `new_path` rules out renaming a
directory into its own subtree.  The UNIQUE index on `files.path` can
abort either UPDATE, so the description is conditional on the call
returning a state rather than raising.) -/
theorem C7_amended (st : MetaState) (inode new_parent_id : Nat)
    (new_name new_path : String) (row : FileRow) (st' : MetaState)
    (hrow : get_file st inode = some row)
    (hdir : row.is_dir = true)
    (hnp : likeMatch (renamePattern row.path) new_path.toList = false)
    (hok : rename_file st inode new_parent_id new_name new_path =
      Except.ok st') :
    st'.files.map (·.id) = st.files.map (·.id) ∧
      ({ row with parent_id := new_parent_id, name := new_name,
                  path := new_path } ∈ st'.files) ∧
      (∀ f ∈ st.files, f.id ≠ inode →
        (likeMatch (renamePattern row.path) f.path.toList = true →
          { f with path := new_path ++ f.path.drop row.path.length } ∈
            st'.files) ∧
        (likeMatch (renamePattern row.path) f.path.toList = false →
          f ∈ st'.files)) ∧
      (∀ f ∈ st.files, ∀ t : List Char,
        f.path.toList = row.path.toList ++ '/' :: t →
        likeMatch (renamePattern row.path) f.path.toList = true ∧
          (new_path ++ f.path.drop row.path.length).toList =
            new_path.toList ++ '/' :: t) := by
  have hfind := List.find?_some hrow
  have hid : row.id = inode := by
    simp only [Bool.and_eq_true, beq_iff_eq] at hfind
    exact hfind.1
  simp only [rename_file, hrow] at hok
  by_cases hg : st.files.any (fun f => f.id != inode && f.path == new_path) = true
  · rw [if_pos hg] at hok
    exact Except.noConfusion hok
  · rw [if_neg hg, if_pos hdir] at hok
    cases hsw : renameSweep (renamePattern row.path) row.path.length new_path []
        (st.files.map (fun f =>
          if f.id = inode then
            { f with parent_id := new_parent_id, name := new_name,
                     path := new_path }
          else f)) with
    | error e =>
      rw [hsw] at hok
      exact Except.noConfusion hok
    | ok files2 =>
      simp only [hsw, Except.map] at hok
      have hst' : st' = { st with files := files2 } := (Except.ok.inj hok).symm
      have hfiles2 := renameSweep_ok (renamePattern row.path) row.path.length
        new_path _ _ _ hsw
      rw [List.nil_append] at hfiles2
      have hfiles : st'.files = (st.files.map (fun f =>
          if f.id = inode then
            { f with parent_id := new_parent_id, name := new_name,
                     path := new_path }
          else f)).map (fun f =>
            if likeMatch (renamePattern row.path) f.path.toList then
              { f with path := new_path ++ f.path.drop row.path.length }
            else f) := by
        rw [hst']
        exact hfiles2
      rw [hfiles]
      simp only [List.map_map]
      refine ⟨?_, ?_, ?_, ?_⟩
      · apply List.map_congr_left
        intro f _
        by_cases h1 : f.id = inode <;>
          by_cases h2 : likeMatch (renamePattern row.path) f.path.toList <;>
            simp [Function.comp, h1, h2] <;>
              split <;> rfl
      · refine List.mem_map.mpr ⟨row, List.mem_of_find?_eq_some hrow, ?_⟩
        simp only [Function.comp, if_pos hid]
        rw [if_neg]
        rw [hnp]
        simp
      · intro f hf hfid
        constructor
        · intro hm
          refine List.mem_map.mpr ⟨f, hf, ?_⟩
          simp only [Function.comp, if_neg hfid]
          rw [if_pos hm]
        · intro hm
          refine List.mem_map.mpr ⟨f, hf, ?_⟩
          simp only [Function.comp, if_neg hfid]
          rw [hm]
          simp
      · intro f _ t ht
        refine ⟨likeMatch_of_startsWith row.path f.path.toList t ht, ?_⟩
        have hlen : row.path.length = row.path.toList.length := rfl
        have hdropt : (f.path.drop row.path.length).toList =
            f.path.toList.drop row.path.length := by
          rw [String.drop_eq]
          rfl
        have : (new_path ++ f.path.drop row.path.length).toList =
            new_path.toList ++ (f.path.drop row.path.length).toList := rfl
        rw [this, hdropt, ht, hlen]
        congr 1
        exact List.drop_left _ _

/-- Claim C7 witness: renaming the plain directory `/src` to `/lib`
succeeds and rewrites the descendant `/src/main` to `/lib/main`. -/
theorem C7_amended_witness :
    ∃ st', rename_file stRenameOk 2 1 "lib" "/lib" = Except.ok st' ∧
      { id := 3, parent_id := 2, name := "main",
        path := "/lib" ++ "/src/main".drop "/src".length, is_dir := false,
        current_version_id := none, is_deleted := false } ∈ st'.files ∧
      "/lib" ++ "/src/main".drop "/src".length = "/lib/main" :=
  ⟨_, rfl,
    ((C7_amended stRenameOk 2 1 "lib" "/lib"
      { id := 2, parent_id := 1, name := "src", path := "/src", is_dir := true,
        current_version_id := none, is_deleted := false } _
      (by decide) (by decide) (by decide) rfl).2.2.1
      { id := 3, parent_id := 2, name := "main", path := "/src/main",
        is_dir := false, current_version_id := none, is_deleted := false }
      (by decide) (by decide)).1 (by decide),
    by decide⟩

/-! ### C5 -/

/-- Claim C5, counterexample.  In `stSnapRef`, version 1 is non-deleted,
older than the cutoff and referenced by no `current_version_id`, so the
claim says `prune_versions_before(100)` deletes it and returns it; but
`snapshot_entries.version_id` carries a foreign key into `versions(id)`
and snapshot `s1` pins version 1, so the DELETE raises an IntegrityError
and the call fails with no rows deleted. -/
theorem C5_counterexample :
    (∃ v ∈ stSnapRef.versions, v.is_deleted = false ∧ v.created_at < 100 ∧
        ∀ f ∈ stSnapRef.files, f.current_version_id ≠ some v.id) ∧
      (prune_versions_before stSnapRef 100).toOption = none := by
  exact ⟨by decide, by decide⟩

/-- Claim C5, amended — prune-before victim set.  When no snapshot entry
references a victim, `prune_versions_before(cutoff)` succeeds, returns
exactly the non-deleted version rows strictly older than the cutoff that
no file's `current_version_id` (live or soft-deleted) references,
deletes exactly those rows, decrements each referenced object's
ref_count once per deleted row, and leaves the files table unchanged;
every version pointed to by some `current_version_id` and every version
with `created_at ≥ cutoff` is kept. -/
theorem C5_amended (st : MetaState) (cutoff : Nat)
    (hnd : (st.versions.map (·.id)).Nodup)
    (hsnap : ∀ e ∈ st.snapshot_entries,
      ∀ r ∈ list_prunable_versions_before st cutoff, e.version_id ≠ r.id) :
    ∃ st1,
      prune_versions_before st cutoff =
        Except.ok (list_prunable_versions_before st cutoff, st1) ∧
      (∀ v, v ∈ list_prunable_versions_before st cutoff ↔
        v ∈ st.versions ∧ v.is_deleted = false ∧ v.created_at < cutoff ∧
          ∀ f ∈ st.files, f.current_version_id ≠ some v.id) ∧
      (∀ v ∈ st.versions, (v ∈ st1.versions ↔
        ¬(v.is_deleted = false ∧ v.created_at < cutoff ∧
          ∀ f ∈ st.files, f.current_version_id ≠ some v.id))) ∧
      st1.objects = st.objects.map (fun o =>
        { o with ref_count := o.ref_count -
            ((list_prunable_versions_before st cutoff).countP
              (fun r => r.object_hash == o.hash) : Int) }) ∧
      st1.files = st.files := by
  have hnoerr : ¬ ((list_prunable_versions_before st cutoff).any
      (fun r => st.snapshot_entries.any (fun e => e.version_id == r.id)) = true) := by
    intro hany
    rcases List.any_eq_true.mp hany with ⟨r, hr, hinner⟩
    rcases List.any_eq_true.mp hinner with ⟨e, he, heq⟩
    exact hsnap e he r hr (beq_iff_eq.mp heq)
  refine ⟨(list_prunable_versions_before st cutoff).foldl pruneStep st, ?_, ?_, ?_, ?_, ?_⟩
  · rw [prune_versions_before, pruneRows, if_neg hnoerr]
    rfl
  · intro v
    rw [mem_list_prunable_before]
  · intro v hv
    have hiff : ∀ w : VersionRow,
        ((!w.is_deleted && decide (w.created_at < cutoff) &&
          st.files.all (fun f => f.current_version_id != some w.id)) = true) ↔
          (w.is_deleted = false ∧ w.created_at < cutoff ∧
            ∀ f ∈ st.files, f.current_version_id ≠ some w.id) := by
      intro w
      simp [List.all_eq_true, and_assoc]
    have hall := versions_after_prune st
      (fun w => !w.is_deleted && decide (w.created_at < cutoff) &&
        st.files.all (fun f => f.current_version_id != some w.id))
      leFileCreatedId hnd v hv
    rw [foldl_pruneStep_versions, List.mem_filter, list_prunable_versions_before]
    rw [hall]
    constructor
    · rintro ⟨-, hkeep⟩ hcon
      rw [Bool.not_eq_true'] at hkeep
      simp only [] at hkeep
      have := (hiff v).mpr hcon
      rw [hkeep] at this
      exact Bool.noConfusion this
    · intro hcon
      refine ⟨hv, ?_⟩
      rw [Bool.not_eq_true']
      show (!v.is_deleted && decide (v.created_at < cutoff) &&
        st.files.all (fun f => f.current_version_id != some v.id)) = false
      cases hpv : (!v.is_deleted && decide (v.created_at < cutoff) &&
        st.files.all (fun f => f.current_version_id != some v.id)) with
      | false => rfl
      | true => exact absurd ((hiff v).mp hpv) hcon
  · rw [list_prunable_versions_before]
    exact foldl_pruneStep_objects _ st
  · exact foldl_pruneStep_files _ st

/-- Claim C5 witness: pruning `stPruneB` before time 15 succeeds and
returns the victim list. -/
theorem C5_amended_witness :
    ∃ st1, prune_versions_before stPruneB 15 =
      Except.ok (list_prunable_versions_before stPruneB 15, st1) := by
  obtain ⟨st1, h1, -⟩ := C5_amended stPruneB 15 (by decide) (by decide)
  exact ⟨st1, h1⟩

/-! ### C6 -/

theorem filterMap_current_entries (l : List FileRow) (sid : Nat)
    (h : ∀ f ∈ l, f.current_version_id ≠ none) :
    l.filterMap (fun f => f.current_version_id.map (fun vid =>
        ({ snapshot_id := sid, file_id := f.id, version_id := vid } : EntryRow))) =
      l.map (fun f =>
        { snapshot_id := sid, file_id := f.id,
          version_id := f.current_version_id.getD 0 }) := by
  induction l with
  | nil => rfl
  | cons f fs ih =>
    rw [List.filterMap_cons, List.map_cons]
    cases hc : f.current_version_id with
    | none => exact absurd hc (h f (List.mem_cons_self _ _))
    | some vid =>
      simp only [hc, Option.map_some', Option.getD_some]
      rw [ih (fun g hg => h g (List.mem_cons_of_mem _ hg))]

/-- Claim C6, counterexample.  Creating a fresh snapshot commits twice:
the first committed state (`create_snapshot`, which commits the snapshot
row and its entries) contains the snapshot but no SNAPSHOT_CREATE event
— the event lands only in the second, separate `record_event`
transaction — refuting "emits the SNAPSHOT_CREATE event in the same
transaction as those inserts". -/
theorem C6_counterexample :
    ((snapshot_create_cli stSnapC "s1" none).toOption.map (fun r =>
        r.2.map (fun s =>
          (s.snapshots.any (fun x => x.name == "s1"),
           s.events.any (fun e => e.action == "SNAPSHOT_CREATE"))))) =
      some [(true, false), (true, true)] := by
  decide

/-- Claim C6, amended — snapshot create.  For a fresh name, provided
every live regular file's non-null `current_version_id` references an
existing version row (the `snapshot_entries.version_id` foreign key —
violated only by a dangling reference — would otherwise abort the
entry INSERT with nothing committed), the command commits the snapshot
row plus exactly one entry per live regular file with a non-null
current_version_id in one transaction, and then emits the
SNAPSHOT_CREATE event in a second, separate transaction; for an
existing name it fails with ALREADY_EXISTS and commits nothing. -/
theorem C6_amended (st : MetaState) (name : String) (desc : Option String) :
    ((∃ s ∈ st.snapshots, s.name = name) →
        snapshot_create_cli st name desc = Except.error ()) ∧
      ((∀ s ∈ st.snapshots, s.name ≠ name) →
        (∀ f ∈ st.files, f.is_deleted = false → f.is_dir = false →
          ∀ vid ∈ f.current_version_id, ∃ v ∈ st.versions, v.id = vid) →
        ∃ st1,
          snapshot_create_cli st name desc =
            Except.ok (st.next_snapshot_id,
              [st1, record_event st1 "SNAPSHOT_CREATE" (some ("snapshot:" ++ name))]) ∧
          st1.snapshots = st.snapshots ++
            [{ id := st.next_snapshot_id, name := name, description := desc }] ∧
          st1.snapshot_entries = st.snapshot_entries ++
            (st.files.filter (fun f =>
              !f.is_deleted && !f.is_dir && f.current_version_id != none)).map
              (fun f => { snapshot_id := st.next_snapshot_id, file_id := f.id,
                          version_id := f.current_version_id.getD 0 }) ∧
          st1.files = st.files ∧ st1.versions = st.versions ∧
          st1.objects = st.objects ∧ st1.events = st.events) := by
  constructor
  · rintro ⟨s, hs, hname⟩
    have h : (st.snapshots.any (fun s => s.name == name)) = true :=
      List.any_eq_true.mpr ⟨s, hs, (show (s.name == name) = true from beq_iff_eq.mpr hname)⟩
    rw [snapshot_create_cli, create_snapshot, if_pos h]
  · intro hfresh hfk
    have hany : (st.snapshots.any (fun s => s.name == name)) = false := by
      rw [Bool.eq_false_iff]
      intro h
      rcases List.any_eq_true.mp h with ⟨s, hs, hb⟩
      exact hfresh s hs (beq_iff_eq.mp hb)
    have hfkb : ((st.files.filter (fun f =>
        !f.is_deleted && !f.is_dir && f.current_version_id != none)).filterMap
        (fun f => f.current_version_id.map (fun vid =>
          ({ snapshot_id := st.next_snapshot_id, file_id := f.id,
             version_id := vid } : EntryRow)))).any
        (fun e => !(st.versions.any (fun v => v.id == e.version_id))) = false := by
      rw [Bool.eq_false_iff]
      intro hbad
      rcases List.any_eq_true.mp hbad with ⟨e, he, hbe⟩
      rcases List.mem_filterMap.mp he with ⟨f, hf, hmap⟩
      rcases Option.map_eq_some'.mp hmap with ⟨vid, hvid, hev⟩
      rcases List.mem_filter.mp hf with ⟨hfm, hfp⟩
      simp only [Bool.and_eq_true, Bool.not_eq_true'] at hfp
      rcases hfk f hfm hfp.1.1 hfp.1.2 vid (Option.mem_def.mpr hvid) with
        ⟨v, hv, hvid2⟩
      have hvany : st.versions.any (fun v => v.id == e.version_id) = true := by
        refine List.any_eq_true.mpr ⟨v, hv, ?_⟩
        rw [← hev]
        exact beq_iff_eq.mpr hvid2
      rw [Bool.not_eq_true'] at hbe
      rw [hvany] at hbe
      exact Bool.noConfusion hbe
    refine ⟨{ st with
        snapshots := st.snapshots ++
          [{ id := st.next_snapshot_id, name := name, description := desc }]
        snapshot_entries := st.snapshot_entries ++
          (st.files.filter (fun f =>
            !f.is_deleted && !f.is_dir && f.current_version_id != none)).filterMap
            (fun f => f.current_version_id.map (fun vid =>
              ({ snapshot_id := st.next_snapshot_id, file_id := f.id,
                 version_id := vid } : EntryRow)))
        next_snapshot_id := st.next_snapshot_id + 1 }, ?_, rfl, ?_, rfl, rfl, rfl, rfl⟩
    · simp only [snapshot_create_cli, create_snapshot, hany, hfkb,
        Bool.false_eq_true, ite_false]
    · show st.snapshot_entries ++ _ = st.snapshot_entries ++ _
      congr 1
      apply filterMap_current_entries
      intro f hf
      have := (List.mem_filter.mp hf).2
      simp only [Bool.and_eq_true, bne_iff_ne, ne_eq] at this
      exact this.2

/-- Claim C6 witness: creating snapshot "s1" on `stSnapC` commits the
snapshot-with-entries state first and the event state second. -/
theorem C6_amended_witness :
    ∃ st1, snapshot_create_cli stSnapC "s1" none =
      Except.ok (stSnapC.next_snapshot_id,
        [st1, record_event st1 "SNAPSHOT_CREATE" (some ("snapshot:" ++ "s1"))]) := by
  obtain ⟨st1, h1, -⟩ := (C6_amended stSnapC "s1" none).2 (by decide) (by decide)
  exact ⟨st1, h1⟩

/-! ### C4 -/

theorem find?_append_of_none {α : Type} (p : α → Bool) (l1 l2 : List α)
    (h : l1.find? p = none) : (l1 ++ l2).find? p = l2.find? p := by
  induction l1 with
  | nil => rfl
  | cons a l ih =>
    rw [List.find?_cons] at h
    rw [List.cons_append, List.find?_cons]
    cases ha : p a
    · rw [ha] at h
      exact ih h
    · rw [ha] at h
      exact Option.noConfusion h

/-- After mapping an update that touches only the row with a given
(unique) id and leaves that row live, the live-row lookup by id finds
the updated row. -/
theorem find_live_update (files : List FileRow) (f : FileRow)
    (g : FileRow → FileRow)
    (hnd : (files.map (·.id)).Nodup) (hf : f ∈ files)
    (hg_other : ∀ x, x.id ≠ f.id → g x = x)
    (hg_id : (g f).id = f.id) (hg_live : (g f).is_deleted = false) :
    (files.map g).find? (fun x => x.id == f.id && !x.is_deleted) = some (g f) := by
  induction files with
  | nil => exact absurd hf (List.not_mem_nil f)
  | cons a fs ih =>
    rw [List.map_cons, List.find?_cons]
    by_cases ha : a.id = f.id
    · have haf : a = f := by
        rcases List.mem_cons.mp hf with rfl | hfs
        · rfl
        · exfalso
          rw [List.map_cons] at hnd
          exact (List.nodup_cons.mp hnd).1 (ha ▸ List.mem_map.mpr ⟨f, hfs, rfl⟩)
      subst haf
      have : ((g a).id == a.id && !(g a).is_deleted) = true := by
        rw [hg_id, hg_live]
        simp
      rw [this]
    · have hga : g a = a := hg_other a ha
      have : ((g a).id == f.id && !(g a).is_deleted) = false := by
        rw [hga]
        have : (a.id == f.id) = false := by
          simp only [beq_eq_false_iff_ne]; exact ha
        simp [this]
      rw [this]
      have hffs : f ∈ fs := by
        rcases List.mem_cons.mp hf with rfl | hfs
        · exact absurd rfl ha
        · exact hfs
      rw [List.map_cons] at hnd
      exact ih (List.nodup_cons.mp hnd).2 hffs

/-- After mapping a path-preserving update that leaves the first
path-match live, the live lookup by path finds its image. -/
theorem find_path_live_update (files : List FileRow) (path : String)
    (f : FileRow) (hf : files.find? (fun x => x.path == path) = some f)
    (g : FileRow → FileRow) (hg_path : ∀ x, (g x).path = x.path)
    (hg_live : (g f).is_deleted = false) :
    (files.map g).find? (fun x => x.path == path && !x.is_deleted) = some (g f) := by
  induction files with
  | nil => exact Option.noConfusion hf
  | cons a fs ih =>
    rw [List.find?_cons] at hf
    rw [List.map_cons, List.find?_cons]
    cases ha : (a.path == path)
    · rw [ha] at hf
      have : ((g a).path == path && !(g a).is_deleted) = false := by
        rw [hg_path a, ha]
        simp
      rw [this]
      exact ih hf
    · rw [ha] at hf
      have heq : a = f := Option.some_injective _ hf
      subst heq
      have hp : ((g a).path == path && !(g a).is_deleted) = true := by
        rw [hg_path a, ha, hg_live]
        simp
      rw [hp]

/-- Claim C4 — restore round-trip.  For a file found at `path` (deleted
rows included) whose ordered version list has at least `k ≥ 1` entries,
`restore --version k` (not a dry run) appends exactly one new version
row duplicating the k-th entry's hash and size (all pre-existing version
rows unchanged), points the file's `current_version_id` at the new row,
clears its `is_deleted` flag, and a subsequent read of the file returns
the bytes of the k-th version's blob. -/
theorem C4_restore_roundtrip (st : MetaState) (disk : Disk) (path : String)
    (k now : Nat) (file_row : FileRow) (target : VersionRow)
    (hS : schemaInv st)
    (hfid : (st.files.map (·.id)).Nodup)
    (hf : get_file_by_path st path true = some file_row)
    (hk1 : 1 ≤ k) (hk2 : k ≤ (list_versions st file_row.id).length)
    (htarget : (list_versions st file_row.id).get? (k - 1) = some target) :
    ∃ st2,
      restore_run st path k now false = Except.ok
        ({ path := path, restored_from_version := k,
           target_hash := target.object_hash, target_size := target.size_bytes,
           dry_run := false }, st2) ∧
      st2.versions = st.versions ++
        [{ id := st.next_version_id, file_id := file_row.id,
           object_hash := target.object_hash, size_bytes := target.size_bytes,
           created_at := now, is_deleted := false }] ∧
      (∃ f2, get_file st2 file_row.id = some f2 ∧
        f2.current_version_id = some st.next_version_id ∧
        f2.is_deleted = false) ∧
      read_file st2 disk path = read_sync disk target.object_hash := by
  obtain ⟨-, hndI, -, hBound⟩ := hS
  have hfind : st.files.find? (fun x => x.path == path) = some file_row := by
    simpa [get_file_by_path] using hf
  have hfmem : file_row ∈ st.files := List.mem_of_find?_eq_some hfind
  have hany : (st.files.any (fun f => f.id == file_row.id)) = true :=
    List.any_eq_true.mpr ⟨file_row, hfmem, by simp⟩
  cases hcv : create_version st file_row.id target.object_hash target.size_bytes
      now "RESTORE" with
  | error e =>
    rw [create_version, if_pos hany] at hcv
    exact Except.noConfusion hcv
  | ok r =>
    obtain ⟨hv, -, hn, -, hfiles, hvid⟩ :=
      create_version_ok_state st file_row.id target.object_hash target.size_bytes
        now "RESTORE" r hcv
    have hmain : restore_run st path k now false = Except.ok
        ({ path := path, restored_from_version := k,
           target_hash := target.object_hash, target_size := target.size_bytes,
           dry_run := false },
         if file_row.is_deleted then set_file_deleted r.2 file_row.id false
         else r.2) := by
      simp only [restore_run, hf]
      rw [if_neg (show ¬(k < 1 ∨ (list_versions st file_row.id).length < k) by omega)]
      simp only [htarget]
      rw [if_neg (show ¬(false = true) by simp)]
      simp only [hcv]
    set st2 := if file_row.is_deleted then set_file_deleted r.2 file_row.id false
      else r.2 with hst2
    have hst2v : st2.versions = r.2.versions := by
      rw [hst2]
      cases file_row.is_deleted
      · rw [if_neg (by simp)]
      · rw [if_pos rfl]
        rfl
    have hg : ∃ g : FileRow → FileRow, st2.files = st.files.map g ∧
        (∀ x, x.id ≠ file_row.id → g x = x) ∧
        (∀ x, (g x).id = x.id) ∧ (∀ x, (g x).path = x.path) ∧
        (g file_row).is_deleted = false ∧
        (g file_row).current_version_id = some st.next_version_id := by
      cases hdel : file_row.is_deleted with
      | false =>
        refine ⟨fun f => if f.id = file_row.id then
          { f with current_version_id := some st.next_version_id } else f,
          ?_, ?_, ?_, ?_, ?_, ?_⟩
        · rw [hst2, if_neg (by simp [hdel]), hfiles]
        · intro x hx
          dsimp only
          rw [if_neg hx]
        · intro x
          dsimp only
          by_cases hx : x.id = file_row.id
          · rw [if_pos hx]
          · rw [if_neg hx]
        · intro x
          dsimp only
          by_cases hx : x.id = file_row.id
          · rw [if_pos hx]
          · rw [if_neg hx]
        · dsimp only
          rw [if_pos rfl]
          exact hdel
        · dsimp only
          rw [if_pos rfl]
      | true =>
        refine ⟨fun f => if f.id = file_row.id then
          { f with current_version_id := some st.next_version_id,
                   is_deleted := false } else f,
          ?_, ?_, ?_, ?_, ?_, ?_⟩
        · rw [hst2, if_pos hdel]
          show (set_file_deleted r.2 file_row.id false).files = _
          rw [set_file_deleted]
          show r.2.files.map _ = _
          rw [hfiles, List.map_map]
          apply List.map_congr_left
          intro x _
          by_cases hx : x.id = file_row.id
          · simp only [Function.comp, if_pos hx]
          · simp only [Function.comp, if_neg hx]
        · intro x hx
          dsimp only
          rw [if_neg hx]
        · intro x
          dsimp only
          by_cases hx : x.id = file_row.id
          · rw [if_pos hx]
          · rw [if_neg hx]
        · intro x
          dsimp only
          by_cases hx : x.id = file_row.id
          · rw [if_pos hx]
          · rw [if_neg hx]
        · dsimp only
          rw [if_pos rfl]
        · dsimp only
          rw [if_pos rfl]
    obtain ⟨g, hgfiles, hg_other, hg_id, hg_path, hg_live, hg_cur⟩ := hg
    have hgetfile : get_file st2 file_row.id = some (g file_row) := by
      rw [get_file, hgfiles]
      exact find_live_update st.files file_row g hfid hfmem hg_other
        ((hg_id file_row)) hg_live
    have hnewrow : st2.versions = st.versions ++
        [{ id := st.next_version_id, file_id := file_row.id,
           object_hash := target.object_hash, size_bytes := target.size_bytes,
           created_at := now, is_deleted := false }] := by
      rw [hst2v, hv]
    refine ⟨st2, hmain, hnewrow, ⟨g file_row, hgetfile, hg_cur, hg_live⟩, ?_⟩
    have hbypath : get_file_by_path st2 path = some (g file_row) := by
      rw [get_file_by_path]
      rw [if_neg (by simp)]
      rw [hgfiles]
      exact find_path_live_update st.files path file_row hfind g hg_path hg_live
    have hcur : get_current_version st2 (g file_row).id = some
        ({ id := st.next_version_id, file_id := file_row.id,
           object_hash := target.object_hash, size_bytes := target.size_bytes,
           created_at := now, is_deleted := false } : VersionRow) := by
      rw [get_current_version, hg_id]
      simp only [hgetfile, hg_cur]
      rw [hnewrow]
      rw [find?_append_of_none]
      · simp [List.find?_cons]
      · rw [List.find?_eq_none]
        intro v hvmem
        have := hBound v hvmem
        simp only [beq_iff_eq]
        omega
    simp only [read_file, hbypath, hcur]

/-- Claim C4 witness: restoring version 1 of `/f` in `stPruneB` and
reading the file back through blob "aa". -/
theorem C4_restore_roundtrip_witness :
    ∃ st2, restore_run stPruneB "/f" 1 30 false = Except.ok
        ({ path := "/f", restored_from_version := 1, target_hash := "aa",
           target_size := 1, dry_run := false }, st2) ∧
      read_file st2 diskAA "/f" = read_sync diskAA "aa" := by
  obtain ⟨st2, h1, -, -, h4⟩ := C4_restore_roundtrip stPruneB diskAA "/f" 1 30
    { id := 2, parent_id := 1, name := "f", path := "/f", is_dir := false,
      current_version_id := some 2, is_deleted := false }
    { id := 1, file_id := 2, object_hash := "aa", size_bytes := 1,
      created_at := 10, is_deleted := false }
    (by unfold schemaInv hashFK; decide)
    (by decide) (by decide) (by decide) (by decide) (by decide)
  exact ⟨st2, h1, h4⟩

/-! ### C10 -/

theorem find?_append_of_some {α : Type} (p : α → Bool) (l1 l2 : List α)
    (a : α) (h : l1.find? p = some a) : (l1 ++ l2).find? p = some a := by
  induction l1 with
  | nil => exact Option.noConfusion h
  | cons b l ih =>
    rw [List.find?_cons] at h
    rw [List.cons_append, List.find?_cons]
    cases hb : p b
    · rw [hb] at h
      exact ih h
    · rw [hb] at h
      exact h

/-- A version lookup below the id allocator is unaffected by
`create_version` (which only appends a fresh id). -/
theorem get_version_create_preserved (s0 : MetaState) (fid : Nat) (h : String)
    (sz now : Nat) (act : String) (r : Nat × MetaState)
    (hok : create_version s0 fid h sz now act = Except.ok r)
    (vid : Nat) (hvid : vid < s0.next_version_id) :
    get_version r.2 vid = get_version s0 vid := by
  obtain ⟨hv, -, -, -, -, -⟩ := create_version_ok_state s0 fid h sz now act r hok
  rw [get_version, get_version, hv]
  cases hfind : s0.versions.find? (fun v => v.id == vid) with
  | some a => exact find?_append_of_some _ _ _ a hfind
  | none =>
    rw [find?_append_of_none _ _ _ hfind]
    rw [List.find?_cons]
    have hne : (s0.next_version_id == vid) = false := by
      simp only [beq_eq_false_iff_ne]
      omega
    simp [hne]

theorem exists_id_map (files : List FileRow) (g : FileRow → FileRow)
    (hg : ∀ x, (g x).id = x.id) (fid : Nat)
    (h : ∃ f ∈ files, f.id = fid) : ∃ f ∈ files.map g, f.id = fid := by
  rcases h with ⟨f, hf, hfid⟩
  exact ⟨g f, List.mem_map.mpr ⟨f, hf, rfl⟩, by rw [hg f, hfid]⟩

/-- Specification of the real-mode snapshot-restore entry loop: under
the snapshot-entry foreign keys (version ids below the allocator, file
ids present), it restores exactly the entries whose version row exists
and counts the rest as skipped. -/
theorem snapRestoreLoop_spec (now : Nat) :
    ∀ (es : List EntryRow) (s0 : MetaState) (restored skipped : Nat),
      (∀ e ∈ es, e.version_id < s0.next_version_id) →
      (∀ e ∈ es, ∃ f ∈ s0.files, f.id = e.file_id) →
      ∃ s', snapRestoreLoop now es s0 restored skipped = Except.ok
        (s', restored + es.countP (fun e => (get_version s0 e.version_id).isSome),
         skipped + es.countP (fun e => (get_version s0 e.version_id).isNone)) := by
  intro es
  induction es with
  | nil =>
    intro s0 restored skipped _ _
    exact ⟨s0, by simp [snapRestoreLoop]⟩
  | cons e es ih =>
    intro s0 restored skipped hids hfiles
    cases hv : get_version s0 e.version_id with
    | none =>
      obtain ⟨s', hs'⟩ := ih s0 restored (skipped + 1)
        (fun x hx => hids x (List.mem_cons_of_mem _ hx))
        (fun x hx => hfiles x (List.mem_cons_of_mem _ hx))
      refine ⟨s', ?_⟩
      rw [snapRestoreLoop, hv, hs']
      have h1 : (e :: es).countP (fun x => (get_version s0 x.version_id).isSome) =
          es.countP (fun x => (get_version s0 x.version_id).isSome) := by
        rw [List.countP_cons]
        simp [hv]
      have h2 : (e :: es).countP (fun x => (get_version s0 x.version_id).isNone) =
          es.countP (fun x => (get_version s0 x.version_id).isNone) + 1 := by
        rw [List.countP_cons]
        simp [hv]
      rw [h1, h2]
      have harith : skipped +
          (es.countP (fun x => (get_version s0 x.version_id).isNone) + 1) =
          skipped + 1 +
            es.countP (fun x => (get_version s0 x.version_id).isNone) := by
        omega
      rw [harith]
    | some v =>
      have hany : (s0.files.any (fun f => f.id == e.file_id)) = true := by
        rcases hfiles e (List.mem_cons_self _ _) with ⟨f, hf, hfid⟩
        exact List.any_eq_true.mpr ⟨f, hf, beq_iff_eq.mpr hfid⟩
      cases hcv : create_version s0 e.file_id v.object_hash v.size_bytes now
          "SNAPSHOT_RESTORE" with
      | error err =>
        rw [create_version, if_pos hany] at hcv
        exact Except.noConfusion hcv
      | ok r =>
        obtain ⟨hver, -, hnext, -, hfl, -⟩ :=
          create_version_ok_state s0 e.file_id v.object_hash v.size_bytes now
            "SNAPSHOT_RESTORE" r hcv
        set s1 := set_file_deleted r.2 e.file_id false with hs1
        have hs1v : s1.versions = r.2.versions := rfl
        have hs1n : s1.next_version_id = r.2.next_version_id := rfl
        have hgv : ∀ vid < s0.next_version_id,
            get_version s1 vid = get_version s0 vid := by
          intro vid hvid
          rw [show get_version s1 vid = get_version r.2 vid from rfl]
          exact get_version_create_preserved s0 e.file_id v.object_hash
            v.size_bytes now "SNAPSHOT_RESTORE" r hcv vid hvid
        obtain ⟨s', hs'⟩ := ih s1 (restored + 1) skipped
          (by
            intro x hx
            rw [hs1n, hnext]
            have := hids x (List.mem_cons_of_mem _ hx)
            omega)
          (by
            intro x hx
            have hids1 : ∀ y : FileRow,
                ((fun f => if f.id = e.file_id then
                  { f with current_version_id := some s0.next_version_id }
                  else f) y).id = y.id := by
              intro y
              dsimp only
              by_cases hy : y.id = e.file_id
              · rw [if_pos hy]
              · rw [if_neg hy]
            have hids2 : ∀ y : FileRow,
                ((fun f => if f.id = e.file_id then { f with is_deleted := false }
                  else f) y).id = y.id := by
              intro y
              dsimp only
              by_cases hy : y.id = e.file_id
              · rw [if_pos hy]
              · rw [if_neg hy]
            have h1 := exists_id_map s0.files _ hids1 x.file_id
              (hfiles x (List.mem_cons_of_mem _ hx))
            rw [← hfl] at h1
            exact exists_id_map r.2.files _ hids2 x.file_id h1)
        refine ⟨s', ?_⟩
        rw [snapRestoreLoop]
        simp only [hv, hcv]
        rw [← hs1, hs']
        have hcs : es.countP (fun x => (get_version s1 x.version_id).isSome) =
            es.countP (fun x => (get_version s0 x.version_id).isSome) := by
          apply List.countP_congr
          intro x hx
          rw [hgv x.version_id (hids x (List.mem_cons_of_mem _ hx))]
        have hcn : es.countP (fun x => (get_version s1 x.version_id).isNone) =
            es.countP (fun x => (get_version s0 x.version_id).isNone) := by
          apply List.countP_congr
          intro x hx
          rw [hgv x.version_id (hids x (List.mem_cons_of_mem _ hx))]
        rw [hcs, hcn]
        have h1 : (e :: es).countP (fun x => (get_version s0 x.version_id).isSome) =
            es.countP (fun x => (get_version s0 x.version_id).isSome) + 1 := by
          rw [List.countP_cons]
          simp [hv]
        have h2 : (e :: es).countP (fun x => (get_version s0 x.version_id).isNone) =
            es.countP (fun x => (get_version s0 x.version_id).isNone) := by
          rw [List.countP_cons]
          simp [hv]
        rw [h1, h2]
        have harith : restored +
            (es.countP (fun x => (get_version s0 x.version_id).isSome) + 1) =
            restored + 1 +
              es.countP (fun x => (get_version s0 x.version_id).isSome) := by
          omega
        rw [harith]

theorem foldl_softdel_versions (ids : List Nat) (st : MetaState) :
    (ids.foldl (fun s i => soft_delete_file s i) st).versions = st.versions := by
  induction ids generalizing st with
  | nil => rfl
  | cons i is ih => rw [List.foldl_cons, ih]; rfl

theorem foldl_softdel_next (ids : List Nat) (st : MetaState) :
    (ids.foldl (fun s i => soft_delete_file s i) st).next_version_id =
      st.next_version_id := by
  induction ids generalizing st with
  | nil => rfl
  | cons i is ih => rw [List.foldl_cons, ih]; rfl

theorem foldl_softdel_ids (ids : List Nat) (st : MetaState) (fid : Nat)
    (h : ∃ f ∈ st.files, f.id = fid) :
    ∃ f ∈ (ids.foldl (fun s i => soft_delete_file s i) st).files, f.id = fid := by
  induction ids generalizing st with
  | nil => exact h
  | cons i is ih =>
    rw [List.foldl_cons]
    refine ih (soft_delete_file st i) ?_
    rcases h with ⟨f, hf, hfid⟩
    refine ⟨if f.id = i then { f with is_deleted := true } else f, ?_, ?_⟩
    · exact List.mem_map.mpr ⟨f, hf, rfl⟩
    · by_cases hy : f.id = i
      · rw [if_pos hy]
        exact hfid
      · rw [if_neg hy]
        exact hfid

theorem countP_isSome_add_isNone (es : List EntryRow)
    (f : EntryRow → Option VersionRow) :
    es.countP (fun e => (f e).isSome) + es.countP (fun e => (f e).isNone) =
      es.length := by
  induction es with
  | nil => rfl
  | cons e es ih =>
    cases hf : f e <;> simp [List.countP_cons, hf] <;> omega

/-- Claim C10 — snapshot restore dry-run ignores pruned versions.  For
an existing snapshot (with schema-consistent entries: version ids below
the allocator, file ids present), the dry run reports `files_restored`
equal to the total entry count and `skipped_missing_versions = 0`
without touching the state, while the real run restores exactly the
entries whose version row exists and counts the rest as skipped; the
two counters of the real run sum to the entry count, so the dry-run
plan overstates `files_restored` by exactly the number of dangling
entries. -/
theorem C10_snapshot_restore_dryrun (st : MetaState) (name : String)
    (keep_new : Bool) (now : Nat) (snapshot : SnapshotRow)
    (hsnap : get_snapshot_by_name st name = some snapshot)
    (hids : ∀ e ∈ get_snapshot_entries st snapshot.id,
      e.version_id < st.next_version_id)
    (hfiles : ∀ e ∈ get_snapshot_entries st snapshot.id,
      ∃ f ∈ st.files, f.id = e.file_id) :
    (∃ repD, snapshot_restore_cli st name keep_new true now =
        Except.ok (repD, st) ∧
      repD.files_restored = (get_snapshot_entries st snapshot.id).length ∧
      repD.skipped_missing_versions = 0) ∧
    (∃ repR st2, snapshot_restore_cli st name keep_new false now =
        Except.ok (repR, st2) ∧
      repR.files_restored = (get_snapshot_entries st snapshot.id).countP
        (fun e => (get_version st e.version_id).isSome) ∧
      repR.skipped_missing_versions = (get_snapshot_entries st snapshot.id).countP
        (fun e => (get_version st e.version_id).isNone) ∧
      repR.files_restored + repR.skipped_missing_versions =
        (get_snapshot_entries st snapshot.id).length) := by
  constructor
  · refine ⟨{ files_in_snapshot := (get_snapshot_entries st snapshot.id).length,
              files_restored := (get_snapshot_entries st snapshot.id).length,
              files_soft_deleted := (if keep_new then []
                else sortBy (fun a b => a ≤ b)
                  ((list_active_file_ids st).filter
                    (fun i => !((get_snapshot_entries st snapshot.id).map
                      (·.file_id)).contains i))).length,
              skipped_missing_versions := 0 }, ?_, rfl, rfl⟩
    simp only [snapshot_restore_cli, hsnap, reduceIte]
  · set es := get_snapshot_entries st snapshot.id with hes
    set st1 := (if keep_new then []
      else sortBy (fun a b => a ≤ b)
        ((list_active_file_ids st).filter
          (fun i => !(es.map (·.file_id)).contains i))).foldl
      (fun s i => soft_delete_file s i) st with hst1
    have h1v : st1.versions = st.versions := foldl_softdel_versions _ st
    have h1n : st1.next_version_id = st.next_version_id := foldl_softdel_next _ st
    have hgv : ∀ vid, get_version st1 vid = get_version st vid := by
      intro vid
      rw [get_version, get_version, h1v]
    obtain ⟨s', hloop⟩ := snapRestoreLoop_spec now es st1 0 0
      (by
        intro e he
        rw [h1n]
        exact hids e he)
      (by
        intro e he
        exact foldl_softdel_ids _ st e.file_id (hfiles e he))
    have hcs : es.countP (fun e => (get_version st1 e.version_id).isSome) =
        es.countP (fun e => (get_version st e.version_id).isSome) := by
      apply List.countP_congr
      intro e _
      rw [hgv]
    have hcn : es.countP (fun e => (get_version st1 e.version_id).isNone) =
        es.countP (fun e => (get_version st e.version_id).isNone) := by
      apply List.countP_congr
      intro e _
      rw [hgv]
    rw [hcs, hcn] at hloop
    refine ⟨{ files_in_snapshot := es.length,
              files_restored := es.countP
                (fun e => (get_version st e.version_id).isSome),
              files_soft_deleted := (if keep_new then []
                else sortBy (fun a b => a ≤ b)
                  ((list_active_file_ids st).filter
                    (fun i => !(es.map (·.file_id)).contains i))).length,
              skipped_missing_versions := es.countP
                (fun e => (get_version st e.version_id).isNone) },
      record_event s' "SNAPSHOT_RESTORE" (some ("snapshot:" ++ name)),
      ?_, rfl, rfl, countP_isSome_add_isNone es _⟩
    simp only [snapshot_restore_cli, hsnap, reduceIte]
    rw [← hes]
    rw [← hst1]
    simp only [hloop, Nat.zero_add]
    rw [if_neg Bool.false_ne_true]

theorem C10_snapshot_restore_dryrun_witness :
    get_snapshot_by_name stSnapMiss "s1" = some snapMissSnap ∧
    ((∃ repD, snapshot_restore_cli stSnapMiss "s1" true true 99 =
        Except.ok (repD, stSnapMiss) ∧
      repD.files_restored =
        (get_snapshot_entries stSnapMiss snapMissSnap.id).length ∧
      repD.skipped_missing_versions = 0) ∧
    (∃ repR st2, snapshot_restore_cli stSnapMiss "s1" true false 99 =
        Except.ok (repR, st2) ∧
      repR.files_restored =
        (get_snapshot_entries stSnapMiss snapMissSnap.id).countP
          (fun e => (get_version stSnapMiss e.version_id).isSome) ∧
      repR.skipped_missing_versions =
        (get_snapshot_entries stSnapMiss snapMissSnap.id).countP
          (fun e => (get_version stSnapMiss e.version_id).isNone) ∧
      repR.files_restored + repR.skipped_missing_versions =
        (get_snapshot_entries stSnapMiss snapMissSnap.id).length)) :=
  ⟨by decide, C10_snapshot_restore_dryrun stSnapMiss "s1" true 99 snapMissSnap
    (by decide) (by decide) (by decide)⟩

/-! ## GC safety: the real-mode orphan loop -/

theorem delete_object_record_ok (st : MetaState) (h : String) (db1 : MetaState)
    (hok : delete_object_record st h = Except.ok db1) :
    st.versions.any (fun v => v.object_hash == h) = false ∧
      db1 = { st with objects := st.objects.filter (fun o => o.hash != h) } := by
  rw [delete_object_record] at hok
  by_cases hg : st.versions.any (fun v => v.object_hash == h) = true
  · rw [if_pos hg] at hok
    exact Except.noConfusion hok
  · rw [if_neg hg] at hok
    exact ⟨Bool.eq_false_iff.mpr hg, (Except.ok.inj hok).symm⟩

theorem gcRealStep_db_versions (acc : GCAcc) (obj : ObjectRow) :
    (gcRealStep acc obj).db.versions = acc.db.versions := by
  rw [gcRealStep]
  cases hdel : delete_object_record acc.db obj.hash with
  | error e => rfl
  | ok db1 =>
    obtain ⟨-, hdb⟩ := delete_object_record_ok _ _ _ hdel
    subst hdb
    rfl

theorem gcRealStep_db_files (acc : GCAcc) (obj : ObjectRow) :
    (gcRealStep acc obj).db.files = acc.db.files := by
  rw [gcRealStep]
  cases hdel : delete_object_record acc.db obj.hash with
  | error e => rfl
  | ok db1 =>
    obtain ⟨-, hdb⟩ := delete_object_record_ok _ _ _ hdel
    subst hdb
    rfl

/-- The orphan loop never deletes an object that a version row still
references: the foreign key makes `delete_object_record` raise, the
command catches the IntegrityError and merely counts the object as
skipped. -/
theorem gcRealStep_hashFK (acc : GCAcc) (obj : ObjectRow)
    (hFK : hashFK acc.db) : hashFK (gcRealStep acc obj).db := by
  rw [gcRealStep]
  cases hdel : delete_object_record acc.db obj.hash with
  | error e => exact hFK
  | ok db1 =>
    obtain ⟨hg, hdb⟩ := delete_object_record_ok _ _ _ hdel
    subst hdb
    intro v hv
    rcases hFK v hv with ⟨o, ho, hoh⟩
    refine ⟨o, ?_, hoh⟩
    show o ∈ acc.db.objects.filter (fun o => o.hash != obj.hash)
    refine List.mem_filter.mpr ⟨ho, ?_⟩
    have hvh : v.object_hash ≠ obj.hash := by
      intro hEq
      have hb : acc.db.versions.any (fun w => w.object_hash == obj.hash) = true :=
        List.any_eq_true.mpr ⟨v, hv, beq_iff_eq.mpr hEq⟩
      rw [hg] at hb
      exact Bool.noConfusion hb
    exact bne_iff_ne.mpr (by rw [hoh]; exact hvh)

theorem foldl_gcRealStep_versions (objs : List ObjectRow) (acc : GCAcc) :
    (objs.foldl gcRealStep acc).db.versions = acc.db.versions := by
  induction objs generalizing acc with
  | nil => rfl
  | cons o os ih => rw [List.foldl_cons, ih, gcRealStep_db_versions]

theorem foldl_gcRealStep_files (objs : List ObjectRow) (acc : GCAcc) :
    (objs.foldl gcRealStep acc).db.files = acc.db.files := by
  induction objs generalizing acc with
  | nil => rfl
  | cons o os ih => rw [List.foldl_cons, ih, gcRealStep_db_files]

theorem foldl_gcRealStep_hashFK (objs : List ObjectRow) (acc : GCAcc)
    (hFK : hashFK acc.db) : hashFK (objs.foldl gcRealStep acc).db := by
  induction objs generalizing acc with
  | nil => exact hFK
  | cons o os ih =>
    rw [List.foldl_cons]
    exact ih _ (gcRealStep_hashFK acc o hFK)

/-- A version row avoided by every victim survives the pruning loop. -/
theorem mem_versions_after_prune (st : MetaState) (rows : List VersionRow)
    (v : VersionRow) (hv : v ∈ st.versions)
    (hnotv : ∀ q ∈ rows, q.id ≠ v.id) :
    v ∈ (rows.foldl pruneStep st).versions := by
  rw [foldl_pruneStep_versions]
  refine List.mem_filter.mpr ⟨hv, ?_⟩
  rw [List.all_eq_true]
  intro q hq
  exact bne_iff_ne.mpr (hnotv q hq)

/-- Core preservation statement shared by the three gc policies: if
every current-version reference avoids the victim list, both the
pruning loop and the orphan loop keep it resolvable, and the
versions→objects foreign key survives. -/
theorem gc_current_after (st : MetaState) (disk : Disk)
    (rows : List VersionRow) (hFK : hashFK st)
    (hcur : ∀ f ∈ st.files, ∀ vid, f.current_version_id = some vid →
      ∃ v ∈ st.versions, v.id = vid ∧ ∀ q ∈ rows, q.id ≠ v.id) :
    (∀ f ∈ ((get_orphaned_objects (rows.foldl pruneStep st)).foldl gcRealStep
        { db := rows.foldl pruneStep st, disk := disk, processed := 0,
          reclaimed := 0, missing := 0, skipped := 0 }).db.files,
      ∀ vid, f.current_version_id = some vid →
        ∃ v ∈ ((get_orphaned_objects (rows.foldl pruneStep st)).foldl gcRealStep
            { db := rows.foldl pruneStep st, disk := disk, processed := 0,
              reclaimed := 0, missing := 0, skipped := 0 }).db.versions,
          v.id = vid) ∧
    hashFK ((get_orphaned_objects (rows.foldl pruneStep st)).foldl gcRealStep
      { db := rows.foldl pruneStep st, disk := disk, processed := 0,
        reclaimed := 0, missing := 0, skipped := 0 }).db := by
  constructor
  · intro f hf vid hvid
    simp only [foldl_gcRealStep_files, foldl_pruneStep_files] at hf
    rcases hcur f hf vid hvid with ⟨v, hv, hvid2, hnot⟩
    refine ⟨v, ?_, hvid2⟩
    rw [foldl_gcRealStep_versions]
    exact mem_versions_after_prune st rows v hv hnot
  · exact foldl_gcRealStep_hashFK _ _ (hashFK_after_prune st rows hFK)

/-- Claim C2 — counterexample at a concrete input.  `stC2` satisfies the
ref-count law (and the schema invariants), its only regular file is live
with `current_version_id = 1`, yet a real `gc --keep-last 1` run deletes
version 1: the keep-last query protects only each file's newest rows and
never consults `current_version_id`, which carries no foreign key. -/
theorem C2_counterexample :
    refLaw stC2 ∧ schemaInv stC2 ∧
    (∃ f ∈ stC2.files, f.is_deleted = false ∧ f.current_version_id = some 1) ∧
    (gc_command stC2 [] (GCPolicy.keepLast 1) false).toOption.map
        (fun p => p.2.1.versions.any (fun v => v.id == 1)) = some false :=
  ⟨by unfold refLaw; decide, by unfold schemaInv hashFK; decide,
   by decide, by decide⟩

/-- Claim C2 (amended) — GC safety under the precondition `gcSafePre`:
for a state satisfying the ref-count law and the schema invariants in
which every `current_version_id` references an existing non-deleted
version row — for the keep-last policy additionally the newest row of
its file, and with the typer-enforced k ≥ 1 — a successful real gc run
leaves every file's `current_version_id` pointing at a surviving
version row, and no object still referenced by a remaining version row
is deleted in the orphan phase (the foreign key turns such deletes into
counted skips). -/
theorem C2_amended (st : MetaState) (disk : Disk) (policy : GCPolicy)
    (hLaw : refLaw st) (hS : schemaInv st) (hpre : gcSafePre st policy)
    (r : GCReport) (st' : MetaState) (d' : Disk)
    (hrun : gc_command st disk policy false = Except.ok (r, st', d')) :
    (∀ f ∈ st'.files, ∀ vid, f.current_version_id = some vid →
      ∃ v ∈ st'.versions, v.id = vid) ∧ hashFK st' := by
  cases policy with
  | nonePolicy =>
    have hpre' : currentFK st := hpre
    simp only [gc_command, gcVictims, bind, Except.bind, Bool.false_eq_true,
      eq_self_iff_true, ite_false, ite_true, reduceIte] at hrun
    rw [Except.ok.injEq] at hrun
    have hst : st' = ((get_orphaned_objects st).foldl gcRealStep
        { db := st, disk := disk, processed := 0, reclaimed := 0,
          missing := 0, skipped := 0 }).db :=
      (congrArg (fun p => p.2.1) hrun).symm
    subst hst
    have hcur : ∀ f ∈ st.files, ∀ vid, f.current_version_id = some vid →
        ∃ v ∈ st.versions, v.id = vid ∧
          ∀ q ∈ ([] : List VersionRow), q.id ≠ v.id := by
      intro f hf vid hvid
      rcases hpre' f hf vid (Option.mem_def.mpr hvid) with ⟨v, hv, hvid2, -⟩
      exact ⟨v, hv, hvid2, fun q hq => absurd hq (List.not_mem_nil q)⟩
    exact gc_current_after st disk [] hS.2.2.1 hcur
  | keepLast k =>
    obtain ⟨hk, hcm⟩ := hpre
    by_cases hg : (list_prunable_versions st k).any
        (fun q => st.snapshot_entries.any (fun e => e.version_id == q.id)) = true
    · have hbad : gc_command st disk (GCPolicy.keepLast k) false =
          Except.error () := by
        simp only [gc_command, gcVictims, prune_versions_keep_last, pruneRows,
          hg, Except.map, bind, Except.bind, pure, Except.pure, Bool.false_eq_true,
          eq_self_iff_true, ite_false, ite_true, reduceIte]
      rw [hbad] at hrun
      exact Except.noConfusion hrun
    · have hg' : (list_prunable_versions st k).any
          (fun q => st.snapshot_entries.any (fun e => e.version_id == q.id)) =
            false := Bool.eq_false_iff.mpr hg
      simp only [gc_command, gcVictims, prune_versions_keep_last, pruneRows,
        hg', Except.map, bind, Except.bind, pure, Except.pure, Bool.false_eq_true,
        eq_self_iff_true, ite_false, ite_true, reduceIte] at hrun
      rw [Except.ok.injEq] at hrun
      have hst : st' = ((get_orphaned_objects
          ((list_prunable_versions st k).foldl pruneStep st)).foldl gcRealStep
          { db := (list_prunable_versions st k).foldl pruneStep st,
            disk := disk, processed := 0, reclaimed := 0, missing := 0,
            skipped := 0 }).db :=
        (congrArg (fun p => p.2.1) hrun).symm
      subst hst
      have hcur : ∀ f ∈ st.files, ∀ vid, f.current_version_id = some vid →
          ∃ v ∈ st.versions, v.id = vid ∧
            ∀ q ∈ list_prunable_versions st k, q.id ≠ v.id := by
        intro f hf vid hvid
        rcases hcm f hf vid (Option.mem_def.mpr hvid) with
          ⟨v, hv, hvid2, -, hrank⟩
        refine ⟨v, hv, hvid2, ?_⟩
        intro q hq hqid
        rcases (mem_list_prunable_keep st k q).mp hq with ⟨hqmem, -, hqrank⟩
        have hqv : q = v := eq_of_id_eq_of_nodup hS.2.1 hqmem hv hqid
        subst hqv
        rw [hrank] at hqrank
        omega
      exact gc_current_after st disk (list_prunable_versions st k)
        hS.2.2.1 hcur
  | beforeTs t =>
    have hpre' : currentFK st := hpre
    by_cases hg : (list_prunable_versions_before st t).any
        (fun q => st.snapshot_entries.any (fun e => e.version_id == q.id)) = true
    · have hbad : gc_command st disk (GCPolicy.beforeTs t) false =
          Except.error () := by
        simp only [gc_command, gcVictims, prune_versions_before, pruneRows,
          hg, Except.map, bind, Except.bind, pure, Except.pure, Bool.false_eq_true,
          eq_self_iff_true, ite_false, ite_true, reduceIte]
      rw [hbad] at hrun
      exact Except.noConfusion hrun
    · have hg' : (list_prunable_versions_before st t).any
          (fun q => st.snapshot_entries.any (fun e => e.version_id == q.id)) =
            false := Bool.eq_false_iff.mpr hg
      simp only [gc_command, gcVictims, prune_versions_before, pruneRows,
        hg', Except.map, bind, Except.bind, pure, Except.pure, Bool.false_eq_true,
        eq_self_iff_true, ite_false, ite_true, reduceIte] at hrun
      rw [Except.ok.injEq] at hrun
      have hst : st' = ((get_orphaned_objects
          ((list_prunable_versions_before st t).foldl pruneStep st)).foldl
          gcRealStep
          { db := (list_prunable_versions_before st t).foldl pruneStep st,
            disk := disk, processed := 0, reclaimed := 0, missing := 0,
            skipped := 0 }).db :=
        (congrArg (fun p => p.2.1) hrun).symm
      subst hst
      have hcur : ∀ f ∈ st.files, ∀ vid, f.current_version_id = some vid →
          ∃ v ∈ st.versions, v.id = vid ∧
            ∀ q ∈ list_prunable_versions_before st t, q.id ≠ v.id := by
        intro f hf vid hvid
        rcases hpre' f hf vid (Option.mem_def.mpr hvid) with ⟨v, hv, hvid2, -⟩
        refine ⟨v, hv, hvid2, ?_⟩
        intro q hq hqid
        rcases (mem_list_prunable_before st t q).mp hq with ⟨-, -, -, hnone⟩
        exact hnone f hf (by rw [hvid, hqid, hvid2])
      exact gc_current_after st disk (list_prunable_versions_before st t)
        hS.2.2.1 hcur

theorem C2_amended_witness :
    refLaw stPruneB ∧ schemaInv stPruneB ∧
      gcSafePre stPruneB (GCPolicy.keepLast 1) ∧
      ∃ r st' d',
        gc_command stPruneB [] (GCPolicy.keepLast 1) false =
          Except.ok (r, st', d') ∧
        ((∀ f ∈ st'.files, ∀ vid, f.current_version_id = some vid →
            ∃ v ∈ st'.versions, v.id = vid) ∧ hashFK st') := by
  have h1 : refLaw stPruneB := by unfold refLaw; decide
  have h2 : schemaInv stPruneB := by unfold schemaInv hashFK; decide
  have h3 : gcSafePre stPruneB (GCPolicy.keepLast 1) :=
    ⟨by decide, by unfold currentMax; decide⟩
  exact ⟨h1, h2, h3, _, _, _, rfl,
    C2_amended stPruneB [] (GCPolicy.keepLast 1) h1 h2 h3 _ _ _ rfl⟩

/-! ## GC dry-run projection versus the real orphan loop -/

/-- Sharding a hash into `aa/rest` is injective: the two components
reassemble the full hex string. -/
theorem object_path_inj (h1 h2 : String)
    (he : object_path h1 = object_path h2) : h1 = h2 := by
  rw [object_path, object_path, Prod.mk.injEq] at he
  have ht : h1.toList = h2.toList := by
    rw [← List.take_append_drop 2 h1.toList, ← List.take_append_drop 2 h2.toList,
      he.1, he.2]
  exact String.ext ht

theorem find_filter_ne (d : Disk) (pth q : List Char × List Char)
    (hne : q ≠ pth) :
    (d.filter (fun e => e.1 != pth)).find? (fun e => e.1 == q) =
      d.find? (fun e => e.1 == q) := by
  induction d with
  | nil => rfl
  | cons e es ih =>
    rw [List.filter_cons]
    by_cases hep : (e.1 != pth) = true
    · rw [if_pos hep]
      cases hq : (e.1 == q) with
      | true => simp [List.find?_cons, hq]
      | false => simp [List.find?_cons, hq, ih]
    · rw [if_neg hep]
      have he1 : e.1 = pth := by
        have := Bool.eq_false_iff.mpr hep
        rw [bne] at this
        simpa using this
      have hq : (e.1 == q) = false := by
        rw [beq_eq_false_iff_ne, he1]
        exact fun hqq => hne hqq.symm
      rw [ih]
      simp [List.find?_cons, hq]

/-- Deleting one blob leaves every other path's lookup unchanged. -/
theorem diskLookup_delete_sync (d : Disk) (h : String)
    (p : List Char × List Char) (hne : p ≠ object_path h) :
    diskLookup (delete_sync d h).2 p = diskLookup d p := by
  rw [delete_sync]
  cases hl : diskLookup d (object_path h) with
  | none => rfl
  | some b =>
    show diskLookup (d.filter (fun e => e.1 != object_path h)) p = diskLookup d p
    rw [diskLookup, diskLookup, find_filter_ne d (object_path h) p hne]

/-- A successful orphan step in closed form. -/
theorem gcRealStep_ok (acc : GCAcc) (o : ObjectRow)
    (hg : acc.db.versions.any (fun v => v.object_hash == o.hash) = false) :
    gcRealStep acc o =
      { db := { acc.db with
            objects := acc.db.objects.filter (fun x => x.hash != o.hash) }
        disk := (delete_sync acc.disk o.hash).2
        processed := acc.processed + 1
        reclaimed := acc.reclaimed + (delete_sync acc.disk o.hash).1
        missing := acc.missing +
          (if (delete_sync acc.disk o.hash).1 = 0 then 1 else 0)
        skipped := acc.skipped } := by
  have hdel : delete_object_record acc.db o.hash = Except.ok
      { acc.db with
          objects := acc.db.objects.filter (fun x => x.hash != o.hash) } := by
    rw [delete_object_record, if_neg (by rw [hg]; exact Bool.false_ne_true)]
  rw [gcRealStep]
  simp only [hdel]

/-- The real orphan loop with no referenced candidate and every blob on
disk at its recorded size: every candidate is processed, none skipped,
and the freed bytes are the recorded sizes. -/
theorem gcRealLoop_counts (orphans : List ObjectRow) :
    ∀ acc : GCAcc,
      (∀ o ∈ orphans,
        acc.db.versions.any (fun v => v.object_hash == o.hash) = false) →
      ((orphans.map (·.hash)).Nodup) →
      (∀ o ∈ orphans, ∃ b, diskLookup acc.disk (object_path o.hash) = some b ∧
        b.length = o.size_bytes) →
      (orphans.foldl gcRealStep acc).processed =
          acc.processed + orphans.length ∧
        (orphans.foldl gcRealStep acc).reclaimed =
          acc.reclaimed + (orphans.map (·.size_bytes)).sum ∧
        (orphans.foldl gcRealStep acc).skipped = acc.skipped := by
  induction orphans with
  | nil =>
    intro acc _ _ _
    simp
  | cons o os ih =>
    intro acc href hnd hdisk
    have hg : acc.db.versions.any (fun v => v.object_hash == o.hash) = false :=
      href o (List.mem_cons_self o os)
    rcases hdisk o (List.mem_cons_self o os) with ⟨b, hb, hblen⟩
    have hfd : (delete_sync acc.disk o.hash).1 = o.size_bytes := by
      rw [delete_sync]
      simp only [hb]
      exact hblen
    rw [List.foldl_cons, gcRealStep_ok acc o hg]
    set acc1 : GCAcc :=
      { db := { acc.db with
            objects := acc.db.objects.filter (fun x => x.hash != o.hash) }
        disk := (delete_sync acc.disk o.hash).2
        processed := acc.processed + 1
        reclaimed := acc.reclaimed + (delete_sync acc.disk o.hash).1
        missing := acc.missing +
          (if (delete_sync acc.disk o.hash).1 = 0 then 1 else 0)
        skipped := acc.skipped } with hacc1
    have hnotmem : o.hash ∉ os.map (·.hash) := (List.nodup_cons.mp hnd).1
    obtain ⟨hp, hr, hs⟩ := ih acc1
      (by
        intro x hx
        show acc.db.versions.any (fun v => v.object_hash == x.hash) = false
        exact href x (List.mem_cons_of_mem _ hx))
      (List.nodup_cons.mp hnd).2
      (by
        intro x hx
        rcases hdisk x (List.mem_cons_of_mem _ hx) with ⟨bx, hbx, hbxlen⟩
        refine ⟨bx, ?_, hbxlen⟩
        show diskLookup (delete_sync acc.disk o.hash).2 (object_path x.hash) =
          some bx
        rw [diskLookup_delete_sync]
        · exact hbx
        · intro hpe
          exact hnotmem (object_path_inj x.hash o.hash hpe ▸
            List.mem_map.mpr ⟨x, hx, rfl⟩))
    refine ⟨?_, ?_, ?_⟩
    · rw [hp]
      show acc.processed + 1 + os.length = acc.processed + (o :: os).length
      rw [List.length_cons]
      omega
    · rw [hr]
      show acc.reclaimed + (delete_sync acc.disk o.hash).1 +
          (os.map (·.size_bytes)).sum =
        acc.reclaimed + ((o :: os).map (·.size_bytes)).sum
      rw [hfd, List.map_cons, List.sum_cons]
      omega
    · rw [hs]

/-- Membership in the dry-run projection fold: the initial accumulator
plus every victim hash whose projected post-decrement ref_count drops
to ≤ 0 (the `∉ acc` guard only prevents duplicates). -/
theorem mem_proj_foldl (st : MetaState) (pruned : List VersionRow) :
    ∀ (rows : List VersionRow) (acc : List String) (h : String),
      (h ∈ rows.foldl (fun acc row =>
          match get_object st row.object_hash with
          | none => acc
          | some o =>
            if o.ref_count -
                  (pruned.countP (fun r => r.object_hash == row.object_hash) : Int) ≤ 0
                ∧ row.object_hash ∉ acc
            then acc ++ [row.object_hash] else acc) acc ↔
        (h ∈ acc ∨ ∃ row ∈ rows, row.object_hash = h ∧
          ∃ o, get_object st row.object_hash = some o ∧
            o.ref_count -
              (pruned.countP (fun r => r.object_hash == row.object_hash) : Int) ≤ 0)) := by
  intro rows
  induction rows with
  | nil =>
    intro acc h
    simp
  | cons a rs ih =>
    intro acc h
    rw [List.foldl_cons, ih]
    cases hobj : get_object st a.object_hash with
    | none =>
      simp only [hobj]
      constructor
      · rintro (hmem | ⟨row, hrow, hrest⟩)
        · exact Or.inl hmem
        · exact Or.inr ⟨row, List.mem_cons_of_mem _ hrow, hrest⟩
      · rintro (hmem | ⟨row, hrow, hh, o, ho, hle⟩)
        · exact Or.inl hmem
        · rcases List.mem_cons.mp hrow with rfl | hrow'
          · rw [hobj] at ho
            exact Option.noConfusion ho
          · exact Or.inr ⟨row, hrow', hh, o, ho, hle⟩
    | some o =>
      simp only [hobj]
      by_cases hcond : o.ref_count -
          (pruned.countP (fun r => r.object_hash == a.object_hash) : Int) ≤ 0
      · by_cases hmem : a.object_hash ∈ acc
        · rw [if_neg (fun hand => hand.2 hmem)]
          constructor
          · rintro (hm | ⟨row, hrow, hrest⟩)
            · exact Or.inl hm
            · exact Or.inr ⟨row, List.mem_cons_of_mem _ hrow, hrest⟩
          · rintro (hm | ⟨row, hrow, hh, o', ho', hle⟩)
            · exact Or.inl hm
            · rcases List.mem_cons.mp hrow with rfl | hrow'
              · rw [hh] at hmem
                exact Or.inl hmem
              · exact Or.inr ⟨row, hrow', hh, o', ho', hle⟩
        · rw [if_pos ⟨hcond, hmem⟩]
          constructor
          · rintro (hm | ⟨row, hrow, hrest⟩)
            · rcases List.mem_append.mp hm with hm' | hm'
              · exact Or.inl hm'
              · exact Or.inr ⟨a, List.mem_cons_self a rs,
                  (List.mem_singleton.mp hm').symm, o, hobj, hcond⟩
            · exact Or.inr ⟨row, List.mem_cons_of_mem _ hrow, hrest⟩
          · rintro (hm | ⟨row, hrow, hh, o', ho', hle⟩)
            · exact Or.inl (List.mem_append.mpr (Or.inl hm))
            · rcases List.mem_cons.mp hrow with rfl | hrow'
              · exact Or.inl (List.mem_append.mpr (Or.inr
                  (List.mem_singleton.mpr hh.symm)))
              · exact Or.inr ⟨row, hrow', hh, o', ho', hle⟩
      · rw [if_neg (fun hand => hcond hand.1)]
        constructor
        · rintro (hm | ⟨row, hrow, hrest⟩)
          · exact Or.inl hm
          · exact Or.inr ⟨row, List.mem_cons_of_mem _ hrow, hrest⟩
        · rintro (hm | ⟨row, hrow, hh, o', ho', hle⟩)
          · exact Or.inl hm
          · rcases List.mem_cons.mp hrow with rfl | hrow'
            · rw [hobj] at ho'
              rw [Option.some.inj ho'] at hcond
              exact absurd hle hcond
            · exact Or.inr ⟨row, hrow', hh, o', ho', hle⟩

/-- The `∉ acc` guard keeps the projection duplicate-free (the Python
set). -/
theorem nodup_proj_foldl (st : MetaState) (pruned : List VersionRow) :
    ∀ (rows : List VersionRow) (acc : List String), acc.Nodup →
      (rows.foldl (fun acc row =>
          match get_object st row.object_hash with
          | none => acc
          | some o =>
            if o.ref_count -
                  (pruned.countP (fun r => r.object_hash == row.object_hash) : Int) ≤ 0
                ∧ row.object_hash ∉ acc
            then acc ++ [row.object_hash] else acc) acc).Nodup := by
  intro rows
  induction rows with
  | nil =>
    intro acc hacc
    exact hacc
  | cons a rs ih =>
    intro acc hacc
    rw [List.foldl_cons]
    apply ih
    cases hobj : get_object st a.object_hash with
    | none =>
      simp only [hobj]
      exact hacc
    | some o =>
      simp only [hobj]
      by_cases hc : o.ref_count -
          (pruned.countP (fun r => r.object_hash == a.object_hash) : Int) ≤ 0
          ∧ a.object_hash ∉ acc
      · rw [if_pos hc]
        exact hacc.append (List.nodup_singleton _)
          (fun x hx hx1 => hc.2 (List.mem_singleton.mp hx1 ▸ hx))
      · rw [if_neg hc]
        exact hacc

/-- The dry-run orphan set: the current orphans united with every
victim hash whose projected post-decrement ref_count is ≤ 0. -/
theorem mem_projectedOrphanHashes (st : MetaState) (rows : List VersionRow)
    (h : String) :
    h ∈ projectedOrphanHashes st rows ↔
      ((∃ o ∈ st.objects, o.ref_count ≤ 0 ∧ o.hash = h) ∨
        ∃ row ∈ rows, row.object_hash = h ∧
          ∃ o, get_object st row.object_hash = some o ∧
            o.ref_count -
              (rows.countP (fun r => r.object_hash == row.object_hash) : Int) ≤ 0) := by
  rw [projectedOrphanHashes, mem_proj_foldl]
  constructor
  · rintro (hinit | hrest)
    · left
      rcases List.mem_map.mp hinit with ⟨o, ho, rfl⟩
      rcases List.mem_filter.mp ho with ⟨hom, href⟩
      exact ⟨o, hom, of_decide_eq_true href, rfl⟩
    · right
      exact hrest
  · rintro (⟨o, hom, href, hh⟩ | hrest)
    · left
      exact List.mem_map.mpr
        ⟨o, List.mem_filter.mpr ⟨hom, decide_eq_true href⟩, hh⟩
    · right
      exact hrest

/-- The real-mode orphan set after the pruning loop, read back on the
pre-prune object table. -/
theorem mem_orphans_after_prune (st : MetaState) (rows : List VersionRow)
    (h : String) :
    h ∈ (get_orphaned_objects (rows.foldl pruneStep st)).map (·.hash) ↔
      ∃ o ∈ st.objects,
        o.ref_count - (rows.countP (fun r => r.object_hash == o.hash) : Int) ≤ 0 ∧
          o.hash = h := by
  rw [get_orphaned_objects, foldl_pruneStep_objects]
  constructor
  · intro hm
    rcases List.mem_map.mp hm with ⟨o', ho', hh⟩
    rcases List.mem_filter.mp ho' with ⟨hom, href⟩
    rcases List.mem_map.mp hom with ⟨o, ho, hoeq⟩
    refine ⟨o, ho, ?_, ?_⟩
    · have hle : o'.ref_count ≤ 0 := of_decide_eq_true href
      rw [← hoeq] at hle
      exact hle
    · rw [← hh, ← hoeq]
  · rintro ⟨o, ho, href, hh⟩
    exact List.mem_map.mpr
      ⟨{ o with ref_count :=
          o.ref_count - (rows.countP (fun r => r.object_hash == o.hash) : Int) },
        List.mem_filter.mpr ⟨List.mem_map.mpr ⟨o, ho, rfl⟩, decide_eq_true href⟩,
        hh⟩

/-- The dry-run projection enumerates exactly the hashes the real run
finds orphaned after pruning (as a set, hence in count and sum). -/
theorem proj_perm_orphans (st : MetaState) (rows : List VersionRow)
    (hndh : (st.objects.map (·.hash)).Nodup) :
    (projectedOrphanHashes st rows).Perm
      ((get_orphaned_objects (rows.foldl pruneStep st)).map (·.hash)) := by
  have hnd1 : (projectedOrphanHashes st rows).Nodup := by
    rw [projectedOrphanHashes]
    exact nodup_proj_foldl st rows rows _
      (((List.filter_sublist _).map _).nodup hndh)
  have hnd2 : ((get_orphaned_objects (rows.foldl pruneStep st)).map
      (·.hash)).Nodup := by
    rw [get_orphaned_objects, foldl_pruneStep_objects]
    exact ((List.filter_sublist _).map _).nodup
      (by rw [List.map_map]; exact hndh)
  rw [List.perm_ext_iff_of_nodup hnd1 hnd2]
  intro h
  rw [mem_projectedOrphanHashes, mem_orphans_after_prune]
  constructor
  · rintro (⟨o, ho, href, hh⟩ | ⟨row, hrow, hh, o, hgo, hle⟩)
    · refine ⟨o, ho, ?_, hh⟩
      have hpos : (0 : Int) ≤
          (rows.countP (fun r => r.object_hash == o.hash) : Int) :=
        Int.natCast_nonneg _
      omega
    · rw [get_object] at hgo
      have hom : o ∈ st.objects := List.mem_of_find?_eq_some hgo
      have hpred := List.find?_some hgo
      have hoh : o.hash = row.object_hash := beq_iff_eq.mp hpred
      refine ⟨o, hom, ?_, hoh.trans hh⟩
      rw [hoh]
      exact hle
  · rintro ⟨o, ho, href, hh⟩
    by_cases hz : o.ref_count ≤ 0
    · exact Or.inl ⟨o, ho, hz, hh⟩
    · right
      have hcnt : 0 < rows.countP (fun r => r.object_hash == o.hash) := by
        omega
      rcases List.countP_pos_iff.mp hcnt with ⟨row, hrow, hpr⟩
      have hrh : row.object_hash = o.hash := beq_iff_eq.mp hpr
      refine ⟨row, hrow, hrh.trans hh, ?_⟩
      cases hfo : st.objects.find? (fun x => x.hash == row.object_hash) with
      | none =>
        exfalso
        have hsome : (st.objects.find?
            (fun x => x.hash == row.object_hash)).isSome := by
          rw [List.find?_isSome]
          refine ⟨o, ho, ?_⟩
          rw [hrh]
          exact beq_self_eq_true _
        rw [hfo] at hsome
        exact Bool.noConfusion hsome
      | some o' =>
        have ho'm : o' ∈ st.objects := List.mem_of_find?_eq_some hfo
        have hpred' := List.find?_some hfo
        have ho'h : o'.hash = row.object_hash := beq_iff_eq.mp hpred'
        have ho'o : o' = o :=
          List.inj_on_of_nodup_map hndh ho'm ho (by rw [ho'h, hrh])
        refine ⟨o', ?_, ?_⟩
        · rw [get_object]
          exact hfo
        · rw [ho'o, hrh]
          exact href

/-- The real gc run in closed form when no snapshot entry pins a
victim. -/
theorem gc_command_real_eq (st : MetaState) (disk : Disk) (policy : GCPolicy)
    (hg : (gcVictims st policy).any
      (fun q => st.snapshot_entries.any (fun e => e.version_id == q.id)) =
        false) :
    gc_command st disk policy false =
      Except.ok
        ({ dry_run := false,
           versions_pruned := (gcVictims st policy).length,
           versions_pruned_bytes := ((gcVictims st policy).map (·.size_bytes)).sum,
           orphaned_objects :=
             (get_orphaned_objects
               ((gcVictims st policy).foldl pruneStep st)).length,
           processed_objects := (gcRealAcc st disk (gcVictims st policy)).processed,
           reclaimed_bytes := (gcRealAcc st disk (gcVictims st policy)).reclaimed,
           missing_on_disk := (gcRealAcc st disk (gcVictims st policy)).missing,
           skipped_referenced := (gcRealAcc st disk (gcVictims st policy)).skipped },
          (gcRealAcc st disk (gcVictims st policy)).db,
          (gcRealAcc st disk (gcVictims st policy)).disk) := by
  cases policy with
  | nonePolicy => rfl
  | keepLast k =>
    simp only [gcVictims] at hg
    simp only [gc_command, gcVictims, gcRealAcc, prune_versions_keep_last,
      pruneRows, hg, Except.map, bind, Except.bind, pure, Except.pure,
      Bool.false_eq_true, eq_self_iff_true, ite_false, ite_true, reduceIte]
  | beforeTs t =>
    simp only [gcVictims] at hg
    simp only [gc_command, gcVictims, gcRealAcc, prune_versions_before,
      pruneRows, hg, Except.map, bind, Except.bind, pure, Except.pure,
      Bool.false_eq_true, eq_self_iff_true, ite_false, ite_true, reduceIte]

/-- An orphan (ref_count ≤ 0) of a law-abiding table with no
deleted-marked rows is referenced by no version row at all. -/
theorem orphans_unreferenced (st1 : MetaState) (hlaw1 : refLaw st1)
    (hnodel1 : ∀ v ∈ st1.versions, v.is_deleted = false) :
    ∀ o ∈ get_orphaned_objects st1,
      st1.versions.any (fun v => v.object_hash == o.hash) = false := by
  intro o ho
  rcases List.mem_filter.mp ho with ⟨hom, href⟩
  have hz : o.ref_count ≤ 0 := of_decide_eq_true href
  have hlaw := hlaw1 o hom
  have hcnt : st1.versions.countP
      (fun v => !v.is_deleted && v.object_hash == o.hash) = 0 := by
    omega
  rw [Bool.eq_false_iff]
  intro hcon
  rcases List.any_eq_true.mp hcon with ⟨v, hv, hveq⟩
  have hpv : (fun v => !v.is_deleted && v.object_hash == o.hash) v = true := by
    simp only [Bool.and_eq_true, Bool.not_eq_true']
    exact ⟨hnodel1 v hv, hveq⟩
  exact List.countP_eq_zero.mp hcnt v hv hpv

theorem nodup_orphans_map (st : MetaState) (rows : List VersionRow)
    (hndh : (st.objects.map (·.hash)).Nodup) :
    ((get_orphaned_objects (rows.foldl pruneStep st)).map (·.hash)).Nodup := by
  rw [get_orphaned_objects, foldl_pruneStep_objects]
  exact ((List.filter_sublist _).map _).nodup (by rw [List.map_map]; exact hndh)

theorem nodel_after_prune (st : MetaState) (rows : List VersionRow)
    (hnodel : ∀ v ∈ st.versions, v.is_deleted = false) :
    ∀ v ∈ (rows.foldl pruneStep st).versions, v.is_deleted = false := by
  intro v hv
  rw [foldl_pruneStep_versions] at hv
  exact hnodel v (List.mem_filter.mp hv).1

theorem refLaw_gcVictims (st : MetaState) (policy : GCPolicy)
    (hnd : (st.versions.map (·.id)).Nodup) (hLaw : refLaw st) :
    refLaw ((gcVictims st policy).foldl pruneStep st) := by
  cases policy with
  | nonePolicy => exact hLaw
  | keepLast k =>
    exact refLaw_after_prune st
      (fun v => !v.is_deleted && decide (k < rankDesc st v)) leFileCreatedId
      (fun v hv => by
        simp only [Bool.and_eq_true, Bool.not_eq_true'] at hv
        exact hv.1) hnd hLaw
  | beforeTs t =>
    exact refLaw_after_prune st
      (fun v => !v.is_deleted && decide (v.created_at < t) &&
        st.files.all (fun f => f.current_version_id != some v.id))
      leFileCreatedId
      (fun v hv => by
        simp only [Bool.and_eq_true, Bool.not_eq_true'] at hv
        exact hv.1.1) hnd hLaw

/-- The recorded size the dry run charges for an orphan hash is that
orphan's own size column. -/
theorem sizeAt_orphan (st : MetaState) (rows : List VersionRow)
    (hndh : (st.objects.map (·.hash)).Nodup) :
    ∀ o ∈ get_orphaned_objects (rows.foldl pruneStep st),
      (match get_object st o.hash with
       | some w => w.size_bytes
       | none => 0) = o.size_bytes := by
  intro o ho
  rcases List.mem_filter.mp ho with ⟨hom, -⟩
  rw [foldl_pruneStep_objects] at hom
  rcases List.mem_map.mp hom with ⟨o0, ho0, hdec⟩
  have hh : o.hash = o0.hash := by rw [← hdec]
  have hsz : o.size_bytes = o0.size_bytes := by rw [← hdec]
  cases hfo : get_object st o.hash with
  | none =>
    exfalso
    rw [get_object] at hfo
    have hsome : (st.objects.find? (fun x => x.hash == o.hash)).isSome := by
      rw [List.find?_isSome]
      refine ⟨o0, ho0, ?_⟩
      rw [hh]
      exact beq_self_eq_true _
    rw [hfo] at hsome
    exact Bool.noConfusion hsome
  | some o' =>
    rw [get_object] at hfo
    have ho'm : o' ∈ st.objects := List.mem_of_find?_eq_some hfo
    have hpred := List.find?_some hfo
    have ho'h : o'.hash = o.hash := beq_iff_eq.mp hpred
    have ho'0 : o' = o0 :=
      List.inj_on_of_nodup_map hndh ho'm ho0 (by rw [ho'h, hh])
    show o'.size_bytes = o.size_bytes
    rw [ho'0]
    exact hsz.symm

/-- Claim C3 — counterexample at a concrete input.  `stC3` satisfies the
ref-count law and the orphan candidate's blob sits on disk with its
recorded size, yet gc without a pruning flag reports
(processed, reclaimed, skipped) = (1, 2, 0) in dry-run mode and
(0, 0, 1) in real mode: a deleted-marked version row still counts for
the versions→objects foreign key, so the real delete is skipped while
the ref-count-based projection does not see the row. -/
theorem C3_counterexample :
    refLaw stC3 ∧
    (∀ h ∈ projectedOrphanHashes stC3 (gcVictims stC3 GCPolicy.nonePolicy),
      ∀ o ∈ stC3.objects, o.hash = h →
        (diskLookup diskAA (object_path h)).map (·.length) = some o.size_bytes) ∧
    (gc_command stC3 diskAA GCPolicy.nonePolicy true).toOption.map
        (fun p => (p.1.processed_objects, p.1.reclaimed_bytes,
          p.1.skipped_referenced)) = some (1, 2, 0) ∧
    (gc_command stC3 diskAA GCPolicy.nonePolicy false).toOption.map
        (fun p => (p.1.processed_objects, p.1.reclaimed_bytes,
          p.1.skipped_referenced)) = some (0, 0, 1) :=
  ⟨by unfold refLaw; decide, by decide, by decide, by decide⟩

/-- Claim C3 (amended) — the dry-run projection agrees with a real run
under two additional preconditions: no version row is marked deleted
(such rows are invisible to ref_counts but still block the foreign-key
delete) and no snapshot entry pins a victim (which would abort the real
run).  Then, whenever every projected orphan's blob is on disk at its
recorded size, dry and real mode report the same versions_pruned,
versions_pruned_bytes, processed_objects and reclaimed_bytes, and the
dry run returns the metadata state and the object store unchanged. -/
theorem C3_amended (st : MetaState) (disk : Disk) (policy : GCPolicy)
    (hLaw : refLaw st) (hS : schemaInv st)
    (hnodel : ∀ v ∈ st.versions, v.is_deleted = false)
    (hnosnap : ∀ e ∈ st.snapshot_entries, ∀ q ∈ gcVictims st policy,
      e.version_id ≠ q.id)
    (hdisk : ∀ h ∈ projectedOrphanHashes st (gcVictims st policy),
      ∀ o ∈ st.objects, o.hash = h →
        (diskLookup disk (object_path h)).map (·.length) = some o.size_bytes) :
    ∃ rD rR stR dR,
      gc_command st disk policy true = Except.ok (rD, st, disk) ∧
      gc_command st disk policy false = Except.ok (rR, stR, dR) ∧
      rD.versions_pruned = rR.versions_pruned ∧
      rD.versions_pruned_bytes = rR.versions_pruned_bytes ∧
      rD.processed_objects = rR.processed_objects ∧
      rD.reclaimed_bytes = rR.reclaimed_bytes := by
  set rows := gcVictims st policy with hrows
  set st1 := rows.foldl pruneStep st with hst1
  have hg : rows.any (fun q => st.snapshot_entries.any
      (fun e => e.version_id == q.id)) = false := by
    rw [Bool.eq_false_iff]
    intro hcon
    rcases List.any_eq_true.mp hcon with ⟨q, hq, hinner⟩
    rcases List.any_eq_true.mp hinner with ⟨e, he, heq⟩
    exact hnosnap e he q hq (beq_iff_eq.mp heq)
  have hreal := gc_command_real_eq st disk policy hg
  have hdry : gc_command st disk policy true =
      Except.ok
        ({ dry_run := true, versions_pruned := rows.length,
           versions_pruned_bytes := (rows.map (·.size_bytes)).sum,
           orphaned_objects := (get_orphaned_objects st).length,
           processed_objects := (projectedOrphanHashes st rows).length,
           reclaimed_bytes := ((projectedOrphanHashes st rows).map (fun h =>
             match get_object st h with
             | some o => o.size_bytes
             | none => 0)).sum,
           missing_on_disk := 0, skipped_referenced := 0 }, st, disk) := rfl
  have hperm := proj_perm_orphans st rows hS.1
  have hlaw1 : refLaw st1 := refLaw_gcVictims st policy hS.2.1 hLaw
  have hnodel1 : ∀ v ∈ st1.versions, v.is_deleted = false :=
    nodel_after_prune st rows hnodel
  have href := orphans_unreferenced st1 hlaw1 hnodel1
  have hndm : ((get_orphaned_objects st1).map (·.hash)).Nodup :=
    nodup_orphans_map st rows hS.1
  have hdisk1 : ∀ o ∈ get_orphaned_objects st1, ∃ b,
      diskLookup disk (object_path o.hash) = some b ∧
        b.length = o.size_bytes := by
    intro o ho
    have hmemmap : o.hash ∈ (get_orphaned_objects st1).map (·.hash) :=
      List.mem_map.mpr ⟨o, ho, rfl⟩
    have hmemproj : o.hash ∈ projectedOrphanHashes st rows :=
      hperm.mem_iff.mpr hmemmap
    have ho' := ho
    rcases List.mem_filter.mp ho' with ⟨hom, -⟩
    rw [hst1, foldl_pruneStep_objects] at hom
    rcases List.mem_map.mp hom with ⟨o0, ho0, hdec⟩
    have hh : o.hash = o0.hash := by rw [← hdec]
    have hsz : o.size_bytes = o0.size_bytes := by rw [← hdec]
    have hlook := hdisk o.hash hmemproj o0 ho0 hh.symm
    rcases Option.map_eq_some'.mp hlook with ⟨b, hb, hblen⟩
    exact ⟨b, hb, by rw [hblen, hsz]⟩
  obtain ⟨hp, hr, hs⟩ := gcRealLoop_counts (get_orphaned_objects st1)
    { db := st1, disk := disk, processed := 0, reclaimed := 0,
      missing := 0, skipped := 0 }
    (fun o ho => href o ho) hndm hdisk1
  refine ⟨_, _, _, _, hdry, hreal, rfl, rfl, ?_, ?_⟩
  · show (projectedOrphanHashes st rows).length =
      ((get_orphaned_objects st1).foldl gcRealStep
        { db := st1, disk := disk, processed := 0, reclaimed := 0,
          missing := 0, skipped := 0 }).processed
    have hlen := hperm.length_eq
    rw [List.length_map] at hlen
    rw [hp, hlen]
    show (get_orphaned_objects (rows.foldl pruneStep st)).length =
      0 + (get_orphaned_objects (rows.foldl pruneStep st)).length
    omega
  · show ((projectedOrphanHashes st rows).map (fun h =>
        match get_object st h with
        | some o => o.size_bytes
        | none => 0)).sum =
      ((get_orphaned_objects st1).foldl gcRealStep
        { db := st1, disk := disk, processed := 0, reclaimed := 0,
          missing := 0, skipped := 0 }).reclaimed
    rw [hr]
    have hmapsum := ((hperm.map (fun h =>
      match get_object st h with
      | some o => o.size_bytes
      | none => 0))).sum_eq
    rw [hmapsum, List.map_map]
    have hcong : (get_orphaned_objects (rows.foldl pruneStep st)).map ((fun h =>
        match get_object st h with
        | some o => o.size_bytes
        | none => 0) ∘ (fun x => x.hash)) =
        (get_orphaned_objects (rows.foldl pruneStep st)).map (·.size_bytes) :=
      List.map_congr_left (fun o ho => sizeAt_orphan st rows hS.1 o ho)
    rw [hcong]
    show ((get_orphaned_objects (rows.foldl pruneStep st)).map
        (·.size_bytes)).sum =
      0 + ((get_orphaned_objects (rows.foldl pruneStep st)).map
        (·.size_bytes)).sum
    omega

theorem C3_amended_witness :
    (refLaw stPruneB ∧ schemaInv stPruneB ∧
      (∀ v ∈ stPruneB.versions, v.is_deleted = false) ∧
      (∀ e ∈ stPruneB.snapshot_entries,
        ∀ q ∈ gcVictims stPruneB (GCPolicy.keepLast 1), e.version_id ≠ q.id) ∧
      (∀ h ∈ projectedOrphanHashes stPruneB
          (gcVictims stPruneB (GCPolicy.keepLast 1)),
        ∀ o ∈ stPruneB.objects, o.hash = h →
          (diskLookup diskA1 (object_path h)).map (·.length) =
            some o.size_bytes)) ∧
    ∃ rD rR stR dR,
      gc_command stPruneB diskA1 (GCPolicy.keepLast 1) true =
        Except.ok (rD, stPruneB, diskA1) ∧
      gc_command stPruneB diskA1 (GCPolicy.keepLast 1) false =
        Except.ok (rR, stR, dR) ∧
      rD.versions_pruned = rR.versions_pruned ∧
      rD.versions_pruned_bytes = rR.versions_pruned_bytes ∧
      rD.processed_objects = rR.processed_objects ∧
      rD.reclaimed_bytes = rR.reclaimed_bytes := by
  have h1 : refLaw stPruneB := by unfold refLaw; decide
  have h2 : schemaInv stPruneB := by unfold schemaInv hashFK; decide
  have h3 : ∀ v ∈ stPruneB.versions, v.is_deleted = false := by decide
  have h4 : ∀ e ∈ stPruneB.snapshot_entries,
      ∀ q ∈ gcVictims stPruneB (GCPolicy.keepLast 1), e.version_id ≠ q.id := by
    decide
  have h5 : ∀ h ∈ projectedOrphanHashes stPruneB
      (gcVictims stPruneB (GCPolicy.keepLast 1)),
      ∀ o ∈ stPruneB.objects, o.hash = h →
        (diskLookup diskA1 (object_path h)).map (·.length) =
          some o.size_bytes := by decide
  exact ⟨⟨h1, h2, h3, h4, h5⟩,
    C3_amended stPruneB diskA1 (GCPolicy.keepLast 1) h1 h2 h3 h4 h5⟩

end COWFS
